import Mathlib

/-!
Verification of the template-building pipeline in
src/build_template/main.py (fractal-tasks-template).

The pipeline is modelled shallowly:
  * file contents and path segments are lists of characters;
  * a filesystem tree is a list of (path, content) pairs for regular
    files, directories being the proper prefixes of file paths;
  * Python's str.replace is the fuel-structural function pyReplace;
  * the main workflow is the pure function mainModel, threading the
    world state (source tree, template tree, static overlay, config)
    through the same steps, in the same order, as main().
-/

deriving instance DecidableEq for Except

namespace BuildTemplate

abbrev Seg := List Char

abbrev Content := List Char

abbrev FPath := List Seg

/-- Model of Python str.replace (left-to-right, non-overlapping), structural
on a fuel argument so that the kernel can evaluate it.  When the search
string is empty the text is returned unchanged (the script never calls
replace with an empty search string). -/
def pyReplaceAux (L R : List Char) : Nat → List Char → List Char
  | 0, t => t
  | _ + 1, [] => []
  | fuel + 1, c :: t =>
    if L ≠ [] ∧ L <+: (c :: t) then R ++ pyReplaceAux L R fuel ((c :: t).drop L.length)
    else c :: pyReplaceAux L R fuel t

/-- Python str.replace on character lists. -/
def pyReplace (L R t : List Char) : List Char := pyReplaceAux L R t.length t

theorem length_drop_le_of_ne_nil {L : List Char} (c : Char) (t : List Char) (hL : L ≠ []) :
    ((c :: t).drop L.length).length ≤ t.length := by
  have h1 : 1 ≤ L.length := by
    cases L with
    | nil => exact absurd rfl hL
    | cons a l => exact Nat.succ_le_succ (Nat.zero_le _)
  simp only [List.length_drop, List.length_cons]
  omega

theorem pyReplaceAux_irrel (L R : List Char) :
    ∀ fuel n t, t.length ≤ fuel → t.length ≤ n →
      pyReplaceAux L R fuel t = pyReplaceAux L R n t := by
  intro fuel
  induction fuel with
  | zero =>
    intro n t ht _
    have : t = [] := List.length_eq_zero.mp (Nat.le_zero.mp ht)
    subst this
    cases n <;> rfl
  | succ f ih =>
    intro n t ht hn
    cases t with
    | nil => cases n <;> rfl
    | cons c t =>
      cases n with
      | zero => simp at hn
      | succ m =>
        by_cases h : L ≠ [] ∧ L <+: (c :: t)
        · have hd := length_drop_le_of_ne_nil c t h.1
          simp only [pyReplaceAux, if_pos h]
          rw [ih m ((c :: t).drop L.length)
            (le_trans hd (Nat.le_of_succ_le_succ ht))
            (le_trans hd (Nat.le_of_succ_le_succ hn))]
        · simp only [pyReplaceAux, if_neg h]
          rw [ih m t (Nat.le_of_succ_le_succ ht) (Nat.le_of_succ_le_succ hn)]

theorem pyReplaceAux_eq_pyReplace (L R : List Char) (fuel : Nat) (t : List Char)
    (h : t.length ≤ fuel) : pyReplaceAux L R fuel t = pyReplace L R t :=
  pyReplaceAux_irrel L R fuel t.length t h (le_refl _)

theorem pyReplace_nil (L R : List Char) : pyReplace L R [] = [] := rfl

theorem pyReplace_cons_pos {L : List Char} (R : List Char) {c : Char} {t : List Char}
    (hL : L ≠ []) (hp : L <+: (c :: t)) :
    pyReplace L R (c :: t) = R ++ pyReplace L R ((c :: t).drop L.length) := by
  have hd := length_drop_le_of_ne_nil c t hL
  simp only [pyReplace, List.length_cons, pyReplaceAux, if_pos (And.intro hL hp)]
  rw [pyReplaceAux_eq_pyReplace L R t.length _ hd]
  rfl

theorem pyReplace_cons_neg {L : List Char} (R : List Char) {c : Char} {t : List Char}
    (h : ¬(L ≠ [] ∧ L <+: (c :: t))) :
    pyReplace L R (c :: t) = c :: pyReplace L R t := by
  simp only [pyReplace, List.length_cons, pyReplaceAux, if_neg h]

/-- The non-reintroduction condition between a search literal L and a
replacement string R: L does not occur inside R, no nonempty proper
prefix of L is a suffix of R, no nonempty proper suffix of L is a prefix
of R, and R is not a prefix of any suffix of L.  Under this condition a
pass replacing some literal with R can neither leave nor create an
occurrence of L (made precise by the lemmas below). -/
def OverlapFree (L R : List Char) : Prop :=
  L ≠ [] ∧ ¬L <:+: R ∧
    ∀ k, k < L.length →
      (0 < k → ¬L.take k <:+ R ∧ ¬L.drop k <+: R) ∧ ¬R <+: L.drop k

instance (L R : List Char) : Decidable (OverlapFree L R) := by
  unfold OverlapFree; infer_instance

theorem OverlapFree.ne_nil {L R : List Char} (h : OverlapFree L R) : L ≠ [] := h.1

theorem OverlapFree.r_ne_nil {L R : List Char} (h : OverlapFree L R) : R ≠ [] := by
  intro hR
  subst hR
  have hpos : 0 < L.length := List.length_pos.mpr h.1
  exact (h.2.2 0 hpos).2 List.nil_prefix

/-- An occurrence inside a cons is an occurrence at the head or one in the tail. -/
theorem infix_cons_split {l xs : List Char} {c : Char} (h : l <:+: c :: xs) :
    l <+: c :: xs ∨ l <:+: xs := List.infix_cons_iff.mp h

/-- An occurrence inside an append is inside the left part, inside the right
part, or straddles the boundary. -/
theorem infix_append_split {l b : List Char} :
    ∀ a : List Char, l <:+: a ++ b →
      l <:+: a ∨ l <:+: b ∨
        ∃ k, 0 < k ∧ k < l.length ∧ l.take k <:+ a ∧ l.drop k <+: b := by
  intro a
  induction a with
  | nil => intro h; exact Or.inr (Or.inl h)
  | cons c a' ih =>
    intro h
    rcases infix_cons_split h with hpre | hin
    · by_cases hlen : l.length ≤ (c :: a').length
      · exact Or.inl (List.IsPrefix.isInfix ((List.isPrefix_append_of_length hlen).mp hpre))
      · have hkl : (c :: a').length < l.length := Nat.lt_of_not_le hlen
        refine Or.inr (Or.inr ⟨(c :: a').length, by simp, hkl, ?_, ?_⟩)
        · have h1 : l.take (c :: a').length <+: ((c :: a') ++ b).take (c :: a').length :=
            hpre.take _
          have h2 : ((c :: a') ++ b).take (c :: a').length = c :: a' :=
            List.take_left (c :: a') b
          rw [h2] at h1
          have h3 : (l.take (c :: a').length).length = (c :: a').length := by
            rw [List.length_take]
            omega
          rw [h1.eq_of_length h3]
        · obtain ⟨e, he⟩ := hpre
          have hb : (l ++ e).drop (c :: a').length = b := by
            rw [he]
            exact List.drop_left (c :: a') b
          rw [List.drop_append_of_le_length (le_of_lt hkl)] at hb
          exact ⟨e, hb⟩
    · rcases ih hin with h1 | h2 | ⟨k, hk0, hkl, hsuf, hpre'⟩
      · exact Or.inl (List.infix_cons h1)
      · exact Or.inr (Or.inl h2)
      · exact Or.inr (Or.inr ⟨k, hk0, hkl, hsuf.trans (List.suffix_cons c a'), hpre'⟩)

theorem infix_append_right_of {l r : List Char} (x : List Char) (h : l <:+: r) :
    l <:+: x ++ r := by
  obtain ⟨s, t, hst⟩ := h
  exact ⟨x ++ s, t, by rw [← hst]; simp⟩

theorem drop_isSfx {α : Type} (n : Nat) (l : List α) : l.drop n <:+ l :=
  ⟨l.take n, List.take_append_drop n l⟩

theorem take_isPre {α : Type} (n : Nat) (l : List α) : l.take n <+: l :=
  ⟨l.drop n, List.take_append_drop n l⟩

/-- If a suffix of L survives as a prefix of the output of a replace pass
whose replacement string R cannot overlap L, then it was already a prefix
of the input. -/
theorem pyReplaceAux_drop_track {L Ls R : List Char} (hO : OverlapFree L R) :
    ∀ fuel t k, t.length ≤ fuel →
      L.drop k <+: pyReplaceAux Ls R fuel t → L.drop k <+: t := by
  intro fuel
  induction fuel with
  | zero => intro t k _ h; exact h
  | succ f ih =>
    intro t k ht h
    cases t with
    | nil => exact h
    | cons c t' =>
      by_cases hk : k < L.length
      · by_cases hb : Ls ≠ [] ∧ Ls <+: (c :: t')
        · rw [show pyReplaceAux Ls R (f + 1) (c :: t') =
              R ++ pyReplaceAux Ls R f ((c :: t').drop Ls.length) by
            simp only [pyReplaceAux, if_pos hb]] at h
          by_cases hlen : (L.drop k).length ≤ R.length
          · have hdR : L.drop k <+: R := (List.isPrefix_append_of_length hlen).mp h
            rcases Nat.eq_zero_or_pos k with hk0 | hk0
            · subst hk0
              rw [List.drop_zero] at hdR
              exact absurd hdR.isInfix hO.2.1
            · exact absurd hdR ((hO.2.2 k hk).1 hk0).2
          · have hRd : R <+: L.drop k := by
              have h1 : (L.drop k).take R.length <+:
                  (R ++ pyReplaceAux Ls R f ((c :: t').drop Ls.length)).take R.length :=
                h.take _
              have h2 : (R ++ pyReplaceAux Ls R f ((c :: t').drop Ls.length)).take R.length
                  = R := List.take_left R _
              rw [h2] at h1
              have h3 : ((L.drop k).take R.length).length = R.length := by
                rw [List.length_take]
                omega
              rw [← h1.eq_of_length h3]
              exact take_isPre _ _
            exact absurd hRd (hO.2.2 k hk).2
        · rw [show pyReplaceAux Ls R (f + 1) (c :: t') =
              c :: pyReplaceAux Ls R f t' by simp only [pyReplaceAux, if_neg hb]] at h
          rw [List.drop_eq_getElem_cons hk] at h ⊢
          obtain ⟨hc, hrest⟩ := List.cons_prefix_cons.mp h
          exact List.cons_prefix_cons.mpr
            ⟨hc, ih t' (k + 1) (Nat.le_of_succ_le_succ ht) hrest⟩
      · rw [List.drop_eq_nil_of_le (Nat.le_of_not_lt hk)]
        exact List.nil_prefix

/-- After replacing L by R, no occurrence of L remains, provided L and R
cannot overlap. -/
theorem pyReplaceAux_self_kill {L R : List Char} (hO : OverlapFree L R) :
    ∀ fuel t, t.length ≤ fuel → ¬L <:+: pyReplaceAux L R fuel t := by
  intro fuel
  induction fuel with
  | zero =>
    intro t ht h
    have : t = [] := List.length_eq_zero.mp (Nat.le_zero.mp ht)
    subst this
    exact hO.1 (List.eq_nil_of_infix_nil h)
  | succ f ih =>
    intro t ht h
    cases t with
    | nil => exact hO.1 (List.eq_nil_of_infix_nil h)
    | cons c t' =>
      by_cases hb : L ≠ [] ∧ L <+: (c :: t')
      · rw [show pyReplaceAux L R (f + 1) (c :: t') =
            R ++ pyReplaceAux L R f ((c :: t').drop L.length) by
          simp only [pyReplaceAux, if_pos hb]] at h
        rcases infix_append_split R h with h1 | h2 | ⟨k, hk0, hkl, hsuf, _⟩
        · exact hO.2.1 h1
        · exact ih _ (le_trans (length_drop_le_of_ne_nil c t' hb.1)
            (Nat.le_of_succ_le_succ ht)) h2
        · exact ((hO.2.2 k hkl).1 hk0).1 hsuf
      · rw [show pyReplaceAux L R (f + 1) (c :: t') =
            c :: pyReplaceAux L R f t' by simp only [pyReplaceAux, if_neg hb]] at h
        rcases infix_cons_split h with h1 | h2
        · have hL : 0 < L.length := List.length_pos.mpr hO.1
          rw [show L = L[0] :: L.drop 1 by
            rw [← List.drop_eq_getElem_cons hL, List.drop_zero]] at h1
          obtain ⟨hc, hrest⟩ := List.cons_prefix_cons.mp h1
          have htr : L.drop 1 <+: t' :=
            pyReplaceAux_drop_track hO f t' 1 (Nat.le_of_succ_le_succ ht) hrest
          have : L <+: c :: t' := by
            rw [show L = L[0] :: L.drop 1 by
              rw [← List.drop_eq_getElem_cons hL, List.drop_zero]]
            exact List.cons_prefix_cons.mpr ⟨hc, htr⟩
          exact hb ⟨hO.1, this⟩
        · exact ih t' (Nat.le_of_succ_le_succ ht) h2

/-- A replace pass whose replacement R cannot overlap L does not create
occurrences of L. -/
theorem pyReplaceAux_preserve_none {L Ls R : List Char} (hO : OverlapFree L R) :
    ∀ fuel t, t.length ≤ fuel → ¬L <:+: t → ¬L <:+: pyReplaceAux Ls R fuel t := by
  intro fuel
  induction fuel with
  | zero => intro t _ hnc h; exact hnc h
  | succ f ih =>
    intro t ht hnc h
    cases t with
    | nil => exact hnc h
    | cons c t' =>
      by_cases hb : Ls ≠ [] ∧ Ls <+: (c :: t')
      · rw [show pyReplaceAux Ls R (f + 1) (c :: t') =
            R ++ pyReplaceAux Ls R f ((c :: t').drop Ls.length) by
          simp only [pyReplaceAux, if_pos hb]] at h
        have hnc' : ¬L <:+: (c :: t').drop Ls.length := fun hc =>
          hnc (hc.trans (drop_isSfx Ls.length (c :: t')).isInfix)
        rcases infix_append_split R h with h1 | h2 | ⟨k, hk0, hkl, hsuf, _⟩
        · exact hO.2.1 h1
        · exact ih _ (le_trans (length_drop_le_of_ne_nil c t' hb.1)
            (Nat.le_of_succ_le_succ ht)) hnc' h2
        · exact ((hO.2.2 k hkl).1 hk0).1 hsuf
      · rw [show pyReplaceAux Ls R (f + 1) (c :: t') =
            c :: pyReplaceAux Ls R f t' by simp only [pyReplaceAux, if_neg hb]] at h
        have hnc' : ¬L <:+: t' := fun hc => hnc (List.infix_cons hc)
        rcases infix_cons_split h with h1 | h2
        · have hL : 0 < L.length := List.length_pos.mpr hO.1
          rw [show L = L[0] :: L.drop 1 by
            rw [← List.drop_eq_getElem_cons hL, List.drop_zero]] at h1
          obtain ⟨hc, hrest⟩ := List.cons_prefix_cons.mp h1
          have htr : L.drop 1 <+: t' :=
            pyReplaceAux_drop_track hO f t' 1 (Nat.le_of_succ_le_succ ht) hrest
          refine hnc (List.IsPrefix.isInfix ?_)
          rw [show L = L[0] :: L.drop 1 by
            rw [← List.drop_eq_getElem_cons hL, List.drop_zero]]
          exact List.cons_prefix_cons.mpr ⟨hc, htr⟩
        · exact ih t' (Nat.le_of_succ_le_succ ht) hnc' h2

/-- A pass searching Ls cannot contain the protected string P inside Ls
when Ls and P cannot overlap. -/
theorem OverlapFree.not_rev {Ls P : List Char} (hO : OverlapFree Ls P) : ¬P <:+: Ls := by
  intro h
  obtain ⟨s, e, hse⟩ := h
  have hP : P ≠ [] := hO.r_ne_nil
  have hlen : s.length < Ls.length := by
    have := congrArg List.length hse
    simp only [List.length_append] at this
    have hPpos : 0 < P.length := List.length_pos.mpr hP
    omega
  have hdrop : Ls.drop s.length = P ++ e := by
    rw [← hse, List.append_assoc, List.drop_left s (P ++ e)]
  exact (hO.2.2 s.length hlen).2 (by rw [hdrop]; exact ⟨e, rfl⟩)

/-- Any suffix of a protected string P that is a prefix of the input stays a
prefix of the output of a pass searching Ls, when Ls and P cannot overlap. -/
theorem pyReplaceAux_protect_pre {P Ls R' : List Char} (hO : OverlapFree Ls P) :
    ∀ fuel t j, t.length ≤ fuel →
      P.drop j <+: t → P.drop j <+: pyReplaceAux Ls R' fuel t := by
  intro fuel
  induction fuel with
  | zero => intro t j _ h; exact h
  | succ f ih =>
    intro t j ht h
    cases t with
    | nil => exact h
    | cons c t' =>
      by_cases hj : P.length ≤ j
      · rw [List.drop_eq_nil_of_le hj]
        exact List.nil_prefix
      · have hjP : j < P.length := Nat.lt_of_not_le hj
        have hdP : (P.drop j).length = P.length - j := List.length_drop j P
        have hdpos : 0 < (P.drop j).length := by omega
        by_cases hb : Ls ≠ [] ∧ Ls <+: (c :: t')
        · exfalso
          by_cases hlen : Ls.length ≤ (P.drop j).length
          · have h1 : Ls <+: P.drop j := List.prefix_of_prefix_length_le hb.2 h hlen
            exact hO.2.1 (h1.isInfix.trans (drop_isSfx j P).isInfix)
          · have h1 : P.drop j <+: Ls :=
              List.prefix_of_prefix_length_le h hb.2 (Nat.le_of_not_le hlen)
            have h2 : P.drop j = Ls.take (P.drop j).length :=
              List.prefix_iff_eq_take.mp h1
            have h3 : (P.drop j).length < Ls.length := Nat.lt_of_not_le hlen
            refine ((hO.2.2 (P.drop j).length h3).1 hdpos).1 ?_
            rw [← h2]
            exact drop_isSfx j P
        · rw [show pyReplaceAux Ls R' (f + 1) (c :: t') =
              c :: pyReplaceAux Ls R' f t' by simp only [pyReplaceAux, if_neg hb]]
          rw [List.drop_eq_getElem_cons hjP] at h ⊢
          obtain ⟨hc, hrest⟩ := List.cons_prefix_cons.mp h
          exact List.cons_prefix_cons.mpr
            ⟨hc, ih t' (j + 1) (Nat.le_of_succ_le_succ ht) hrest⟩

/-- An occurrence of a protected string P survives a pass searching Ls when
Ls and P cannot overlap. -/
theorem pyReplaceAux_protect_occ {P Ls R' : List Char} (hO : OverlapFree Ls P) :
    ∀ fuel t, t.length ≤ fuel → P <:+: t → P <:+: pyReplaceAux Ls R' fuel t := by
  intro fuel
  induction fuel with
  | zero => intro t _ h; exact h
  | succ f ih =>
    intro t ht h
    cases t with
    | nil => exact h
    | cons c t' =>
      by_cases hb : Ls ≠ [] ∧ Ls <+: (c :: t')
      · rw [show pyReplaceAux Ls R' (f + 1) (c :: t') =
            R' ++ pyReplaceAux Ls R' f ((c :: t').drop Ls.length) by
          simp only [pyReplaceAux, if_pos hb]]
        have hsplit : c :: t' = Ls ++ (c :: t').drop Ls.length := by
          obtain ⟨e, he⟩ := hb.2
          rw [← he, List.drop_left Ls e]
        rw [hsplit] at h
        rcases infix_append_split Ls h with h1 | h2 | ⟨k, hk0, hkl, hsuf, hpre⟩
        · exact absurd h1 hO.not_rev
        · exact infix_append_right_of R'
            (ih _ (le_trans (length_drop_le_of_ne_nil c t' hb.1)
              (Nat.le_of_succ_le_succ ht)) h2)
        · exfalso
          obtain ⟨w, hw⟩ := hsuf
          have hwd : P.take k = Ls.drop w.length := by
            rw [← hw, List.drop_left w (P.take k)]
          rcases Nat.eq_zero_or_pos w.length with hw0 | hw0
          · have : P.take k = Ls := by
              rw [hwd, hw0, List.drop_zero]
            have : Ls <+: P := by rw [← this]; exact take_isPre k P
            exact hO.2.1 this.isInfix
          · have hwlt : w.length < Ls.length := by
              have := congrArg List.length hw
              simp only [List.length_append, List.length_take] at this
              omega
            refine ((hO.2.2 w.length hwlt).1 hw0).2 ?_
            rw [← hwd]
            exact take_isPre k P
      · rw [show pyReplaceAux Ls R' (f + 1) (c :: t') =
            c :: pyReplaceAux Ls R' f t' by simp only [pyReplaceAux, if_neg hb]]
        rcases infix_cons_split h with h1 | h2
        · have := @pyReplaceAux_protect_pre P Ls R' hO (f + 1) (c :: t') 0 ht
            (by rw [List.drop_zero]; exact h1)
          rw [List.drop_zero] at this
          rw [show pyReplaceAux Ls R' (f + 1) (c :: t') =
              c :: pyReplaceAux Ls R' f t' by simp only [pyReplaceAux, if_neg hb]] at this
          exact this.isInfix
        · exact List.infix_cons (ih t' (Nat.le_of_succ_le_succ ht) h2)

/-- A pass that finds its search string emits its replacement string. -/
theorem pyReplaceAux_emits {L R : List Char} (hL : L ≠ []) :
    ∀ fuel t, t.length ≤ fuel → L <:+: t → R <:+: pyReplaceAux L R fuel t := by
  intro fuel
  induction fuel with
  | zero =>
    intro t ht h
    have : t = [] := List.length_eq_zero.mp (Nat.le_zero.mp ht)
    subst this
    exact absurd (List.eq_nil_of_infix_nil h) hL
  | succ f ih =>
    intro t ht h
    cases t with
    | nil => exact absurd (List.eq_nil_of_infix_nil h) hL
    | cons c t' =>
      by_cases hb : L ≠ [] ∧ L <+: (c :: t')
      · rw [show pyReplaceAux L R (f + 1) (c :: t') =
            R ++ pyReplaceAux L R f ((c :: t').drop L.length) by
          simp only [pyReplaceAux, if_pos hb]]
        exact (List.prefix_append R _).isInfix
      · rw [show pyReplaceAux L R (f + 1) (c :: t') =
            c :: pyReplaceAux L R f t' by simp only [pyReplaceAux, if_neg hb]]
        rcases infix_cons_split h with h1 | h2
        · exact absurd ⟨hL, h1⟩ hb
        · exact List.infix_cons (ih t' (Nat.le_of_succ_le_succ ht) h2)

/-- A pass whose search string does not occur leaves the text unchanged. -/
theorem pyReplaceAux_id {L R : List Char} :
    ∀ fuel t, ¬L <:+: t → pyReplaceAux L R fuel t = t := by
  intro fuel
  induction fuel with
  | zero => intro t _; rfl
  | succ f ih =>
    intro t h
    cases t with
    | nil => rfl
    | cons c t' =>
      have hb : ¬(L ≠ [] ∧ L <+: (c :: t')) := fun hc => h hc.2.isInfix
      rw [show pyReplaceAux L R (f + 1) (c :: t') =
          c :: pyReplaceAux L R f t' by simp only [pyReplaceAux, if_neg hb]]
      rw [ih t' (fun hc => h (List.infix_cons hc))]

/-- Specialisations of the pass lemmas to pyReplace. -/
theorem pyReplace_self_kill {L R : List Char} (hO : OverlapFree L R) (t : List Char) :
    ¬L <:+: pyReplace L R t :=
  pyReplaceAux_self_kill hO t.length t (le_refl _)

theorem pyReplace_preserve_none {L Ls R : List Char} (hO : OverlapFree L R) (t : List Char)
    (h : ¬L <:+: t) : ¬L <:+: pyReplace Ls R t :=
  pyReplaceAux_preserve_none hO t.length t (le_refl _) h

theorem pyReplace_protect_occ {P Ls R' : List Char} (hO : OverlapFree Ls P) (t : List Char)
    (h : P <:+: t) : P <:+: pyReplace Ls R' t :=
  pyReplaceAux_protect_occ hO t.length t (le_refl _) h

theorem pyReplace_emits {L R : List Char} (hL : L ≠ []) (t : List Char) (h : L <:+: t) :
    R <:+: pyReplace L R t :=
  pyReplaceAux_emits hL t.length t (le_refl _) h

theorem pyReplace_id {L R t : List Char} (h : ¬L <:+: t) : pyReplace L R t = t :=
  pyReplaceAux_id t.length t h

/-! ## The filesystem model

A tree is the list of its regular files as (path, content) pairs; a
directory of the tree is a proper nonempty prefix of a file path.  The
constants below transcribe the module-level constants of
src/build_template/main.py. -/

abbrev FS := List (FPath × Content)

/-- The rendered placeholder for a key, as built at main.py:196 and 219. -/
def render (key : Seg) : List Char := "\x7b\x7b ".data ++ key ++ " \x7d\x7d".data

/-- The extension appended by the template-marker pass (main.py:208-209). -/
def jinjaExt : Seg := ".jinja".data

/-- Base name of a path. -/
def lastSeg (p : FPath) : Seg := p.getLastD []

/-- Whether a base name matches one of the patterns in exclusion_patterns
(main.py:53-60); the starred patterns match by suffix, the plain ones by
equality, as Path.match does on a final component. -/
def excludedName (s : Seg) : Bool :=
  ".pyc".data.isSuffixOf s || ".pyo".data.isSuffixOf s || ".pyd".data.isSuffixOf s ||
    s == "__pycache__".data || s == ".DS_Store".data || s == ".ipynb_checkpoints".data

/-- The nonempty prefixes of a path, shallowest first. -/
def pathDepths (p : FPath) : List FPath :=
  (List.range p.length).map (fun i => p.take (i + 1))

/-- Model of path_generator (main.py:97-102): every file and directory of
the tree, in a deterministic order, excluding paths whose base name matches
an exclusion pattern. -/
def path_generator (fs : FS) : List FPath :=
  (((fs.map Prod.fst).flatMap pathDepths).dedup).filter fun p => !excludedName (lastSeg p)

/-- Model of move_path (main.py:141-156): if the source exists, any tree at
the target is deleted first, then the source file or subtree is moved; if
the source is missing the call is skipped with a warning.  The degenerate
case old = new raises in the Python code and is excluded by every
hypothesis under which move_path is reached below. -/
def move_path (fs : FS) (old new : FPath) : FS :=
  if fs.any (fun e => decide (old <+: e.1)) then
    (fs.filter fun e => !(decide (old <+: e.1) || decide (new <+: e.1))) ++
      ((fs.filter fun e => decide (old <+: e.1)).map
        fun e => (new ++ e.1.drop old.length, e.2))
  else fs

/-- Model of ensure_removed (main.py:120-125): delete the path and anything
under it; absence is not an error. -/
def ensure_removed (fs : FS) (p : FPath) : FS :=
  fs.filter fun e => !decide (p <+: e.1)

/-- The allow-list to_be_included (main.py:32-39). -/
def to_be_included : List Seg :=
  ["src".data, "tests".data, "pyproject.toml".data, ".gitignore".data,
    ".pre-commit-config.yaml".data, ".github".data]

/-- The exclude-list to_be_excluded (main.py:42-48). -/
def to_be_excluded : List FPath :=
  [["src".data, "build_template".data],
    ["tests".data, "copier".data],
    [".github".data, "workflows".data, "copier_ci.yml".data],
    [".github".data, "workflows".data, "github_release.yaml".data],
    [".github".data, "workflows".data, "github_release.yml".data]]

/-- Model of copy_any (main.py:105-117) for a source entry copied into the
template root: a missing source is skipped, a directory is copied after
deleting any tree at the destination, a regular file is copied over any
file at the destination. -/
def copy_any (src : FS) (item : FPath) (t : FS) : FS :=
  let entries := src.filter fun e => decide (item <+: e.1)
  match entries with
  | [] => t
  | e0 :: _ =>
    if entries.all fun e => e.1 == item then
      (t.filter fun f => f.1 ≠ [lastSeg item]) ++ [([lastSeg item], e0.2)]
    else
      (t.filter fun f => !decide ([lastSeg item] <+: f.1)) ++
        entries.map fun e => (lastSeg item :: e.1.drop item.length, e.2)

/-- Steps 1-3 of main (main.py:174-190): recreate the template tree from
scratch, copy the allow-list entries, then delete the exclude-list
entries. -/
def seedStep (src : FS) : FS :=
  to_be_excluded.foldl ensure_removed
    (to_be_included.foldl (fun t item => copy_any src [item] t) [])

/-- First fix_mappings entry (main.py:64), as a (search, replacement) pair;
the dict maps each replacement to its search string. -/
def fixPyVersion : List Char × List Char :=
  ("\x7b\x7b matrix.python-version \x7d\x7d".data,
    "\x7b\x7b \x27\x7b\x7b\x27 \x7d\x7d  matrix.python-version \x7b\x7b \x27\x7b\x7b\x27 \x7d\x7d \x7d\x7d".data)

/-- Second fix_mappings entry (main.py:65). -/
def fixOsVersion : List Char × List Char :=
  ("\x7b\x7b matrix.os \x7d\x7d".data,
    "\x7b\x7b \x27\x7b\x7b\x27 \x7d\x7d  matrix.os \x7b\x7b \x27\x7b\x7b\x27 \x7d\x7d \x7d\x7d".data)

/-- Third fix_mappings entry (main.py:66): the special marker whose
occurrences are deleted to re-enable commented-out lines. -/
def fixMarker : List Char × List Char := ("# --- #".data, [])

/-- The extra literal-to-literal corrections fix_mappings (main.py:63-67),
as (search, replacement) pairs in iteration order. -/
def fix_mappings : List (List Char × List Char) := [fixPyVersion, fixOsVersion, fixMarker]

/-- All content substitution passes in execution order: the keyword map
(main.py:194-198), then fix_mappings (main.py:200-203). -/
def contentPasses (kws : List (Seg × List Char)) : List (List Char × List Char) :=
  (kws.map fun kl => (kl.2, render kl.1)) ++ fix_mappings

/-- Model of replace_in_file (main.py:128-138): replace and report whether
the search string occurred. -/
def replace_in_file (sr : List Char × List Char) (c : Content) : Content × Bool :=
  if sr.1 <:+: c then (pyReplace sr.1 sr.2 c, true) else (c, false)

/-- A file content after all substitution passes, with its changed flag. -/
def applyPasses (ps : List (List Char × List Char)) (c : Content) : Content × Bool :=
  ps.foldl (fun acc sr =>
    ((replace_in_file sr acc.1).1, acc.2 || (replace_in_file sr acc.1).2)) (c, false)

/-- Step 4 of main (main.py:192-203): substitute all passes in every
non-excluded file of the tree, and collect the changed paths.  The Python
code records changes key-major into a list that is consumed as a set
(main.py:206); the model lists each changed file once, in tree order. -/
def substitutionStep (kws : List (Seg × List Char)) (fs : FS) : FS × List FPath :=
  (fs.map fun e =>
      if excludedName (lastSeg e.1) then e
      else (e.1, (applyPasses (contentPasses kws) e.2).1),
    (fs.filter fun e =>
      !excludedName (lastSeg e.1) && (applyPasses (contentPasses kws) e.2).2).map Prod.fst)

/-- The last index of a dot in a name, as Python str.rfind. -/
def rfindDot (name : Seg) : Option Nat :=
  (List.range name.length).foldl
    (fun acc i => if name.getD i ' ' = '.' then some i else acc) none

/-- Python PurePath.suffix: the part from the last dot on, provided that dot
is neither the leading character nor the final one. -/
def py_suffix (name : Seg) : Seg :=
  match rfindDot name with
  | some i => if 0 < i ∧ i < name.length - 1 then name.drop i else []
  | none => []

/-- Python PurePath.stem: the base name without py_suffix. -/
def py_stem (name : Seg) : Seg := name.take (name.length - (py_suffix name).length)

/-- A fold of single renames over a list of paths: each path satisfying
the guard is moved to its target, in list order. -/
def condMoveFold (cond : FPath → Prop) [DecidablePred cond] (tgt : FPath → FPath)
    (l : List FPath) (t : FS) : FS :=
  l.foldl (fun t2 p => if cond p then move_path t2 p (tgt p) else t2) t

/-- The name produced by with_suffix(suffix + ".jinja") (main.py:209). -/
def jinjaName (name : Seg) : Seg := py_stem name ++ (py_suffix name ++ jinjaExt)

/-- Step 5a of main (main.py:206-211): append .jinja to every changed file
whose suffix is not already .jinja. -/
def markerStep (changed : List FPath) (fs : FS) : FS :=
  condMoveFold (fun p => ¬py_suffix (lastSeg p) = jinjaExt)
    (fun p => p.dropLast ++ [jinjaName (lastSeg p)]) changed.dedup fs

/-- The first (path, key-literal pair) of the scan product (main.py:215-217)
whose literal occurs in the path's base name. -/
def findRename (kws : List (Seg × List Char)) (fs : FS) : Option (FPath × Seg × List Char) :=
  (path_generator fs).findSome? fun p =>
    (kws.find? fun kl => decide (kl.2 <:+: lastSeg p)).map fun kl => (p, kl)

/-- Step 5b of main (main.py:213-226): the fixed-point rename loop, with an
explicit fuel bound; the Python loop is unbounded, and the fuel used by
mainModel is proved sufficient under the non-reintroduction hypothesis of
the substitution map (claim C2 below). -/
def renameLoop (kws : List (Seg × List Char)) : Nat → FS → FS
  | 0, fs => fs
  | fuel + 1, fs =>
    match findRename kws fs with
    | none => fs
    | some (p, k, l) =>
      renameLoop kws fuel
        (move_path fs p (p.dropLast ++ [pyReplace l (render k) (lastSeg p)]))

/-- The wrapped base name built by the conditional-removal pass
(main.py:232-235). -/
def wrapName (cond : Seg) (stem : Seg) : Seg :=
  "\x7b% if ".data ++ cond ++ " %\x7d".data ++ stem ++ "\x7b% endif %\x7d".data ++ jinjaExt

/-- Step 6 of main (main.py:229-238): for each conditional pattern, wrap
every path of the current scan whose base name contains the pattern; each
match is renamed once, with no fixed-point restart. -/
def conditionalStep (conds : List (Seg × Seg)) (fs : FS) : FS :=
  conds.foldl
    (fun t sc =>
      condMoveFold (fun p => sc.1 <:+: lastSeg p)
        (fun p => p.dropLast ++ [wrapName sc.2 (py_stem (lastSeg p))])
        (path_generator t) t)
    fs

inductive BuildError where
  | configNotFound
  | configKeyMissing
  | unlinkDirectory
  deriving DecidableEq

/-- One static-overlay file merged into the tree (main.py:248-257): the
first snapshot path with the same base name is replaced in place (unlink
raises if that path is a directory, not a file); with no match the file is
copied into the template root. -/
def mergeOne (σ : List FPath) (fs : FS) (e : Seg × Content) : Except (BuildError × FS) FS :=
  match σ.find? fun q => lastSeg q == e.1 with
  | some q =>
    if fs.any fun f => f.1 == q then
      Except.ok ((fs.filter fun f => f.1 ≠ q) ++ [(q, e.2)])
    else Except.error (BuildError.unlinkDirectory, fs)
  | none => Except.ok ((fs.filter fun f => f.1 ≠ [e.1]) ++ [([e.1], e.2)])

/-- The static-file merge (main.py:241-257), over a snapshot of the current
paths taken once before the loop.  The snapshot order of the Python code is
the iteration order of a set and is not specified; it enters the model as
the parameter sigma. -/
def mergeStep (overlay : List (Seg × Content)) (σ : List FPath) (fs : FS) :
    Except (BuildError × FS) FS :=
  overlay.foldlM (mergeOne σ) fs

/-- The two required top-level keys of the YAML configuration
(main.py:171-173). -/
structure RawConfig where
  keyword_map : Option (List (Seg × List Char))
  conditional_patterns : Option (List (Seg × Seg))
  deriving DecidableEq

/-- The world state threaded through a run: the source tree, the template
tree, the flat static overlay, and the configuration file (none when the
file does not exist). -/
structure World where
  source : FS
  template : FS
  static_template : List (Seg × Content)
  config : Option RawConfig
  deriving DecidableEq

inductive LogMsg where
  | checkFailed
  | checkSucceeded
  deriving DecidableEq

structure RunResult where
  world : World
  exitCode : Int
  log : List LogMsg
  deriving DecidableEq

/-- Steps 2-6 of main before the static merge (main.py:174-238): seed the
tree from the source, substitute contents, append template markers, run the
rename loop, then the conditional-removal pass.  This part of the pipeline
is a deterministic function of the source tree and the configuration. -/
def buildTree (kws : List (Seg × List Char)) (conds : List (Seg × Seg)) (src : FS) : FS :=
  let t1 := seedStep src
  let st := substitutionStep kws t1
  let t2 := markerStep st.2 st.1
  conditionalStep conds (renameLoop kws ((path_generator t2).length * kws.length) t2)

/-- Model of main (main.py:162-273).  The configuration is validated before
any tree mutation; the template tree is then rebuilt from scratch (its
previous state is discarded, modelled by seedStep starting from the empty
tree), and the six stages run in source order.  gitDiffRC is the exit code
of the external git diff subprocess, consulted only under check. -/
def mainModel (check : Bool) (gitDiffRC : Int) (σ : List FPath → List FPath) (w : World) :
    Except (BuildError × World) RunResult :=
  match w.config with
  | none => Except.error (BuildError.configNotFound, w)
  | some cfg =>
    match cfg.keyword_map, cfg.conditional_patterns with
    | some kws, some conds =>
      match mergeStep w.static_template
          (σ (path_generator (buildTree kws conds w.source))) (buildTree kws conds w.source) with
      | Except.error (e, tpart) => Except.error (e, { w with template := tpart })
      | Except.ok t5 =>
        if check then
          if gitDiffRC ≠ 0 then Except.ok ⟨{ w with template := t5 }, 1, [LogMsg.checkFailed]⟩
          else Except.ok ⟨{ w with template := t5 }, 0, [LogMsg.checkSucceeded]⟩
        else Except.ok ⟨{ w with template := t5 }, 0, []⟩
    | _, _ => Except.error (BuildError.configKeyMissing, w)

/-! ## Claim theorems -/

/-- C7: if the configuration file path does not exist, or the parsed
configuration lacks the keyword_map or conditional_patterns key, the run
fails immediately with an error and performs no filesystem mutation: the
world, including the pre-existing destination tree, is exactly as it was,
because the configuration is validated before the destination is deleted
and recreated. -/
theorem C7_config_errors_abort_before_mutation (check : Bool) (rc : Int)
    (σ : List FPath → List FPath) (w : World)
    (h : w.config = none ∨
      ∃ cfg, w.config = some cfg ∧
        (cfg.keyword_map = none ∨ cfg.conditional_patterns = none)) :
    ∃ e : BuildError, mainModel check rc σ w = Except.error (e, w) := by
  rcases h with h | ⟨cfg, hcfg, hkey⟩
  · exact ⟨BuildError.configNotFound, by simp [mainModel, h]⟩
  · refine ⟨BuildError.configKeyMissing, ?_⟩
    rcases hkey with hk | hk <;>
      cases hkm : cfg.keyword_map <;>
        cases hcp : cfg.conditional_patterns <;>
          simp_all [mainModel, hcfg]

/-- Witness for C7 at a concrete world with a missing configuration file. -/
theorem C7_witness :
    ∃ e : BuildError,
      mainModel false 0 id ⟨[], [([ "x".data ], "y".data)], [], none⟩ =
        Except.error (e, ⟨[], [([ "x".data ], "y".data)], [], none⟩) :=
  C7_config_errors_abort_before_mutation false 0 id _ (Or.inl rfl)

/-- C8: with the check flag, the run exits 0 with a success message when
the git diff of the template tree reports no differences, and exits 1 with
a failure message when the diff reports differences or itself fails
(nonzero return code); without the flag, a successful build returns 0. -/
theorem C8_check_mode_exit_codes (check : Bool) (rc : Int)
    (σ : List FPath → List FPath) (w : World) (r : RunResult)
    (h : mainModel check rc σ w = Except.ok r) :
    (check = true → rc ≠ 0 → r.exitCode = 1 ∧ r.log = [LogMsg.checkFailed]) ∧
    (check = true → rc = 0 → r.exitCode = 0 ∧ r.log = [LogMsg.checkSucceeded]) ∧
    (check = false → r.exitCode = 0) := by
  unfold mainModel at h
  repeat' split at h
  all_goals
    first
      | exact Except.noConfusion h
      | (injection h with h'
         subst h'
         refine ⟨fun h1 h2 => ?_, fun h1 h2 => ?_, fun h1 => ?_⟩ <;> simp_all)

/-- Witness for C8: a concrete checked run over an empty world with a
failing diff exits 1 with the failure message. -/
theorem C8_witness :
    (true = true → (1 : Int) ≠ 0 →
      (RunResult.mk ⟨[], [], [], some ⟨some [], some []⟩⟩ 1 [LogMsg.checkFailed]).exitCode = 1 ∧
      (RunResult.mk ⟨[], [], [], some ⟨some [], some []⟩⟩ 1 [LogMsg.checkFailed]).log =
        [LogMsg.checkFailed]) ∧
    (true = true → (1 : Int) = 0 →
      (RunResult.mk ⟨[], [], [], some ⟨some [], some []⟩⟩ 1 [LogMsg.checkFailed]).exitCode = 0 ∧
      (RunResult.mk ⟨[], [], [], some ⟨some [], some []⟩⟩ 1 [LogMsg.checkFailed]).log =
        [LogMsg.checkSucceeded]) ∧
    (true = false →
      (RunResult.mk ⟨[], [], [], some ⟨some [], some []⟩⟩ 1 [LogMsg.checkFailed]).exitCode = 0) :=
  C8_check_mode_exit_codes true 1 id ⟨[], [], [], some ⟨some [], some []⟩⟩
    (RunResult.mk ⟨[], [], [], some ⟨some [], some []⟩⟩ 1 [LogMsg.checkFailed]) rfl

/-- The template tree produced by a run, or the error that stopped it. -/
def runTemplate (check : Bool) (rc : Int) (σ : List FPath → List FPath) (w : World) :
    Except BuildError FS :=
  match mainModel check rc σ w with
  | Except.error (e, _) => Except.error e
  | Except.ok r => Except.ok r.world.template

/-- The produced template tree does not depend on the check flag, the git
diff result, or the pre-existing template tree: main validates the config,
then deletes and rebuilds the destination from the source alone. -/
theorem runTemplate_frame (check check' : Bool) (rc rc' : Int) (σ : List FPath → List FPath)
    (s t t' : FS) (ov : List (Seg × Content)) (cfg : Option RawConfig) :
    runTemplate check rc σ ⟨s, t, ov, cfg⟩ = runTemplate check' rc' σ ⟨s, t', ov, cfg⟩ := by
  unfold runTemplate mainModel
  dsimp only
  cases cfg with
  | none => rfl
  | some c =>
    dsimp only
    cases hk : c.keyword_map with
    | none => rfl
    | some kws =>
      cases hc : c.conditional_patterns with
      | none => rfl
      | some conds =>
        dsimp only
        cases hm : mergeStep ov (σ (path_generator (buildTree kws conds s)))
            (buildTree kws conds s) with
        | error e => obtain ⟨e1, e2⟩ := e; rfl
        | ok t5 =>
          cases check <;> cases check' <;>
            by_cases h0 : rc ≠ 0 <;> by_cases h0' : rc' ≠ 0 <;>
              simp [h0, h0']

/-- A successful run leaves the source tree, the static overlay and the
configuration of the world untouched. -/
theorem mainModel_ok_world (check : Bool) (rc : Int) (σ : List FPath → List FPath)
    (w : World) (r : RunResult) (h : mainModel check rc σ w = Except.ok r) :
    r.world.source = w.source ∧ r.world.static_template = w.static_template ∧
      r.world.config = w.config := by
  unfold mainModel at h
  repeat' split at h
  all_goals
    first
      | exact Except.noConfusion h
      | (injection h with h'
         subst h'
         exact ⟨rfl, rfl, rfl⟩)

/-- The destination tree used for the C1 and C10 counterexamples: two
source files share the base name x.txt, and the static overlay also
carries an x.txt. -/
def dupWorld : World :=
  { source := [([ "src".data, "a".data, "x.txt".data ], "A".data),
      ([ "src".data, "b".data, "x.txt".data ], "B".data)],
    template := [],
    static_template := [("x.txt".data, "S".data)],
    config := some ⟨some [], some []⟩ }

/-- Counterexample to C1 as stated: the static-file merge iterates over a
Python set of paths, whose order is not specified (and varies with string
hash randomisation across processes).  With two destination files sharing
an overlay file's base name, two successive runs from the same unchanged
source, configuration and overlay can pick different candidates, producing
destination trees that are not byte-identical. -/
theorem C1_counterexample :
    ∃ r1 r2 : RunResult,
      mainModel false 0 id dupWorld = Except.ok r1 ∧
      mainModel false 0 List.reverse r1.world = Except.ok r2 ∧
      r2.world.template ≠ r1.world.template := by
  refine ⟨_, _, rfl, rfl, ?_⟩
  decide

/-- C1 as amended: with the merge's snapshot enumeration fixed across runs,
a second run from the first run's output world succeeds and produces a
byte-identical destination tree: the pipeline is a deterministic function
of source, configuration and overlay, independent of the pre-existing
destination tree, the check flag and the git diff result. -/
theorem C1_idempotent_amended (check check2 : Bool) (rc rc2 : Int)
    (σ : List FPath → List FPath) (w : World) (r : RunResult)
    (h : mainModel check rc σ w = Except.ok r) :
    ∃ r2 : RunResult, mainModel check2 rc2 σ r.world = Except.ok r2 ∧
      r2.world.template = r.world.template := by
  obtain ⟨hs, hov, hcfg⟩ := mainModel_ok_world check rc σ w r h
  have h1 : runTemplate check rc σ w = Except.ok r.world.template := by
    unfold runTemplate
    rw [h]
  have h2 : runTemplate check2 rc2 σ r.world = runTemplate check rc σ w := by
    have hw : w = ⟨w.source, w.template, w.static_template, w.config⟩ := rfl
    have hrw : r.world = ⟨w.source, r.world.template, w.static_template, w.config⟩ := by
      rw [← hs, ← hov, ← hcfg]
    rw [hw, hrw]
    exact runTemplate_frame check2 check rc2 rc σ w.source r.world.template w.template
      w.static_template w.config
  rw [h1] at h2
  unfold runTemplate at h2
  cases hm : mainModel check2 rc2 σ r.world with
  | error e =>
    rw [hm] at h2
    cases e
    exact Except.noConfusion h2
  | ok r2 =>
    rw [hm] at h2
    injection h2 with h2'
    exact ⟨r2, rfl, h2'⟩

/-- Witness for the amended C1 at a concrete one-file world. -/
theorem C1_idempotent_amended_witness :
    ∃ r2 : RunResult,
      mainModel false 0 id
        (RunResult.mk
          ⟨[([ "pyproject.toml".data ], "x".data)],
            [([ "pyproject.toml".data ], "x".data)], [],
            some ⟨some [], some []⟩⟩ 0 []).world = Except.ok r2 ∧
      r2.world.template =
        (RunResult.mk
          ⟨[([ "pyproject.toml".data ], "x".data)],
            [([ "pyproject.toml".data ], "x".data)], [],
            some ⟨some [], some []⟩⟩ 0 []).world.template :=
  C1_idempotent_amended false false 0 0 id
    ⟨[([ "pyproject.toml".data ], "x".data)], [], [], some ⟨some [], some []⟩⟩
    (RunResult.mk
      ⟨[([ "pyproject.toml".data ], "x".data)],
        [([ "pyproject.toml".data ], "x".data)], [],
        some ⟨some [], some []⟩⟩ 0 []) rfl

/-- The content component of replace_in_file is exactly str.replace. -/
theorem replace_in_file_content (sr : List Char × List Char) (c : Content) :
    (replace_in_file sr c).1 = pyReplace sr.1 sr.2 c := by
  unfold replace_in_file
  split
  · rfl
  · next h => exact (pyReplace_id h).symm

/-- The content component of the substitution passes is a fold of
str.replace over the pass list. -/
theorem applyPasses_content (ps : List (List Char × List Char)) (c : Content) :
    (applyPasses ps c).1 = ps.foldl (fun a sr => pyReplace sr.1 sr.2 a) c := by
  unfold applyPasses
  suffices h : ∀ b, (ps.foldl
      (fun acc sr => ((replace_in_file sr acc.1).1, acc.2 || (replace_in_file sr acc.1).2))
      (c, b)).1 = ps.foldl (fun a sr => pyReplace sr.1 sr.2 a) c from h false
  induction ps generalizing c with
  | nil => intro b; rfl
  | cons sr ps ih =>
    intro b
    simp only [List.foldl_cons]
    rw [← replace_in_file_content sr c]
    exact ih _ _

/-- Non-occurrence of L is preserved by any list of passes whose
replacements cannot overlap L. -/
theorem foldl_preserve_none {L : List Char} (ps : List (List Char × List Char))
    (hO : ∀ sr ∈ ps, OverlapFree L sr.2) :
    ∀ c : Content, ¬L <:+: c →
      ¬L <:+: ps.foldl (fun a sr => pyReplace sr.1 sr.2 a) c := by
  induction ps with
  | nil => intro c h; exact h
  | cons sr ps ih =>
    intro c h
    simp only [List.foldl_cons]
    exact ih (fun x hx => hO x (List.mem_cons_of_mem sr hx))
      _ (pyReplace_preserve_none (hO sr (List.mem_cons_self sr ps)) c h)

/-- An occurrence of P is preserved by any list of passes whose search
strings cannot overlap P. -/
theorem foldl_protect_occ {P : List Char} (ps : List (List Char × List Char))
    (hO : ∀ sr ∈ ps, OverlapFree sr.1 P) :
    ∀ c : Content, P <:+: c →
      P <:+: ps.foldl (fun a sr => pyReplace sr.1 sr.2 a) c := by
  induction ps with
  | nil => intro c h; exact h
  | cons sr ps ih =>
    intro c h
    simp only [List.foldl_cons]
    exact ih (fun x hx => hO x (List.mem_cons_of_mem sr hx))
      _ (pyReplace_protect_occ (hO sr (List.mem_cons_self sr ps)) c h)

/-- Counterexample to C3 as stated: with the single-key substitution map
mapping key k to literal \x7dab, the seeded file content \x7dabab is
rewritten by the engine to a content that still contains the literal,
although there is no other literal whose placeholder rendering could have
introduced it: the literal overlaps its own rendered placeholder. -/
theorem C3_counterexample :
    (substitutionStep [("k".data, "\x7dab".data)] [([ "f.txt".data ], "\x7dabab".data)]).1 =
      [([ "f.txt".data ], "\x7b\x7b k \x7d\x7dab".data)] ∧
    "\x7dab".data <:+: "\x7b\x7b k \x7d\x7dab".data ∧
    render "k".data <:+: "\x7b\x7b k \x7d\x7dab".data := by
  decide

/-- C3 as amended: for a file whose content contains the literal L mapped
from key K, after the substitution engine runs the content contains the
rendered placeholder of K and no longer contains L, unless L is
reintroduced by the engine's own rewriting - by overlapping a rendered
placeholder (its own included), by an earlier literal's pass destroying
the occurrence, or by the fixed extra-substitution pass (whose marker
deletion can splice L together).  The hypotheses rule those exceptions
out. -/
theorem C3_content_roundtrip_amended
    (kws pre post : List (Seg × List Char)) (K : Seg) (L : List Char) (c0 : Content)
    (hsplit : kws = pre ++ (K, L) :: post)
    (hocc : L <:+: c0)
    (hpre : ∀ kl ∈ pre, OverlapFree kl.2 L)
    (hself : OverlapFree L (render K))
    (hpost : ∀ kl ∈ post, OverlapFree L (render kl.1) ∧ OverlapFree kl.2 (render K))
    (hfixL : OverlapFree L fixPyVersion.2 ∧ OverlapFree L fixOsVersion.2)
    (hfixK : OverlapFree fixPyVersion.1 (render K) ∧ OverlapFree fixOsVersion.1 (render K))
    (hmark : ¬fixMarker.1 <:+:
      ((kws.map fun kl => (kl.2, render kl.1)) ++ [fixPyVersion, fixOsVersion]).foldl
        (fun a sr => pyReplace sr.1 sr.2 a) c0) :
    render K <:+: (applyPasses (contentPasses kws) c0).1 ∧
      ¬L <:+: (applyPasses (contentPasses kws) c0).1 := by
  rw [applyPasses_content]
  subst hsplit
  unfold contentPasses fix_mappings
  rw [List.map_append, List.map_cons] at hmark ⊢
  rw [List.foldl_append, List.foldl_append, List.foldl_cons] at hmark ⊢
  simp only [List.foldl_cons, List.foldl_nil] at hmark ⊢
  set c1 := ((pre.map fun kl => (kl.2, render kl.1)).foldl
    (fun a sr => pyReplace sr.1 sr.2 a) c0) with hc1
  have hoc1 : L <:+: c1 := by
    rw [hc1]
    refine foldl_protect_occ _ ?_ c0 hocc
    intro sr hsr
    obtain ⟨kl, hkl, rfl⟩ := List.mem_map.mp hsr
    exact hpre kl hkl
  have hc2R : render K <:+: pyReplace L (render K) c1 :=
    pyReplace_emits hself.1 c1 hoc1
  have hc2L : ¬L <:+: pyReplace L (render K) c1 :=
    pyReplace_self_kill hself c1
  set c3 := ((post.map fun kl => (kl.2, render kl.1)).foldl
    (fun a sr => pyReplace sr.1 sr.2 a) (pyReplace L (render K) c1)) with hc3
  have hc3R : render K <:+: c3 := by
    rw [hc3]
    refine foldl_protect_occ _ ?_ _ hc2R
    intro sr hsr
    obtain ⟨kl, hkl, rfl⟩ := List.mem_map.mp hsr
    exact (hpost kl hkl).2
  have hc3L : ¬L <:+: c3 := by
    rw [hc3]
    refine foldl_preserve_none _ ?_ _ hc2L
    intro sr hsr
    obtain ⟨kl, hkl, rfl⟩ := List.mem_map.mp hsr
    exact (hpost kl hkl).1
  set c4 := pyReplace fixOsVersion.1 fixOsVersion.2
    (pyReplace fixPyVersion.1 fixPyVersion.2 c3) with hc4
  have hc4R : render K <:+: c4 := by
    rw [hc4]
    exact pyReplace_protect_occ hfixK.2 _ (pyReplace_protect_occ hfixK.1 _ hc3R)
  have hc4L : ¬L <:+: c4 := by
    rw [hc4]
    exact pyReplace_preserve_none hfixL.2 _ (pyReplace_preserve_none hfixL.1 _ hc3L)
  have hid : pyReplace fixMarker.1 fixMarker.2 c4 = c4 := pyReplace_id hmark
  rw [hid]
  exact ⟨hc4R, hc4L⟩

/-- Witness for the amended C3: the single-key map project_name to
fractal_tasks_template applied to a pyproject-style content. -/
theorem C3_content_roundtrip_amended_witness :
    render "project_name".data <:+:
      (applyPasses (contentPasses [("project_name".data, "fractal_tasks_template".data)])
        "name = fractal_tasks_template".data).1 ∧
    ¬"fractal_tasks_template".data <:+:
      (applyPasses (contentPasses [("project_name".data, "fractal_tasks_template".data)])
        "name = fractal_tasks_template".data).1 :=
  C3_content_roundtrip_amended
    [("project_name".data, "fractal_tasks_template".data)] [] []
    "project_name".data "fractal_tasks_template".data
    "name = fractal_tasks_template".data
    rfl (by decide) (by decide) (by decide) (by decide)
    (by decide) (by decide) (by decide)

/-! ## Rename lemmas -/

theorem move_path_keep {t : FS} {old new p : FPath} {c : Content}
    (hin : (p, c) ∈ t) (hold : ¬old <+: p) (hnew : ¬new <+: p) :
    (p, c) ∈ move_path t old new := by
  unfold move_path
  split
  · refine List.mem_append_left _ (List.mem_filter.mpr ⟨hin, ?_⟩)
    simp [hold, hnew]
  · exact hin

theorem move_path_moved {t : FS} {old new : FPath} {c : Content}
    (hin : (old, c) ∈ t) : (new, c) ∈ move_path t old new := by
  unfold move_path
  rw [if_pos (List.any_eq_true.mpr ⟨(old, c), hin, by simp⟩)]
  refine List.mem_append_right _ (List.mem_map.mpr ⟨(old, c), List.mem_filter.mpr ⟨hin, by simp⟩, ?_⟩)
  simp

theorem move_path_gone {t : FS} {old new : FPath}
    (hnew : ¬new <+: old) : ∀ c', (old, c') ∉ move_path t old new := by
  intro c' h
  unfold move_path at h
  split at h
  · rcases List.mem_append.mp h with h1 | h2
    · have h2 := (List.mem_filter.mp h1).2
      simp only [Bool.not_eq_true', Bool.or_eq_false_iff, decide_eq_false_iff_not] at h2
      exact h2.1 (List.prefix_refl old)
    · obtain ⟨e, _, heq⟩ := List.mem_map.mp h2
      have hx : new ++ e.1.drop old.length = old := congrArg Prod.fst heq
      exact hnew ⟨e.1.drop old.length, hx⟩
  · next hguard =>
    rw [List.any_eq_true] at hguard
    exact hguard ⟨(old, c'), h, by simp⟩

theorem move_path_mem_cases {t : FS} {old new x : FPath} {c : Content}
    (h : (x, c) ∈ move_path t old new) : (x, c) ∈ t ∨ new <+: x := by
  unfold move_path at h
  split at h
  · rcases List.mem_append.mp h with h1 | h2
    · exact Or.inl (List.mem_filter.mp h1).1
    · obtain ⟨e, _, heq⟩ := List.mem_map.mp h2
      have hx : new ++ e.1.drop old.length = x := congrArg Prod.fst heq
      exact Or.inr ⟨e.1.drop old.length, hx⟩
  · exact Or.inl h

theorem condMoveFold_keep (cond : FPath → Prop) [DecidablePred cond] (tgt : FPath → FPath) :
    ∀ (l : List FPath) (t : FS) (p : FPath) (c : Content),
      (p, c) ∈ t → (∀ q ∈ l, cond q → ¬q <+: p ∧ ¬tgt q <+: p) →
      (p, c) ∈ condMoveFold cond tgt l t := by
  intro l
  induction l with
  | nil => intro t p c h _; exact h
  | cons q l ih =>
    intro t p c h hq
    unfold condMoveFold
    simp only [List.foldl_cons]
    by_cases hc : cond q
    · rw [if_pos hc]
      exact ih _ p c
        (move_path_keep h (hq q (List.mem_cons_self q l) hc).1 (hq q (List.mem_cons_self q l) hc).2)
        (fun x hx hcx => hq x (List.mem_cons_of_mem q hx) hcx)
    · rw [if_neg hc]
      exact ih _ p c h (fun x hx hcx => hq x (List.mem_cons_of_mem q hx) hcx)

theorem condMoveFold_mem_cases (cond : FPath → Prop) [DecidablePred cond] (tgt : FPath → FPath) :
    ∀ (l : List FPath) (t : FS) (x : FPath) (c : Content),
      (x, c) ∈ condMoveFold cond tgt l t →
      (x, c) ∈ t ∨ ∃ q ∈ l, cond q ∧ tgt q <+: x := by
  intro l
  induction l with
  | nil => intro t x c h; exact Or.inl h
  | cons q l ih =>
    intro t x c h
    unfold condMoveFold at h
    simp only [List.foldl_cons] at h
    by_cases hc : cond q
    · rw [if_pos hc] at h
      rcases ih _ x c h with h1 | ⟨r, hr, hcr, hp⟩
      · rcases move_path_mem_cases h1 with h2 | h2
        · exact Or.inl h2
        · exact Or.inr ⟨q, List.mem_cons_self q l, hc, h2⟩
      · exact Or.inr ⟨r, List.mem_cons_of_mem q hr, hcr, hp⟩
    · rw [if_neg hc] at h
      rcases ih _ x c h with h1 | ⟨r, hr, hcr, hp⟩
      · exact Or.inl h1
      · exact Or.inr ⟨r, List.mem_cons_of_mem q hr, hcr, hp⟩

/-- Rebuilding a nonempty path from its parent and base name. -/
theorem dropLast_lastSeg {p : FPath} (h : p ≠ []) : p.dropLast ++ [lastSeg p] = p := by
  unfold lastSeg
  rw [List.getLastD_eq_getLast? , List.getLast?_eq_getLast p h]
  exact List.dropLast_append_getLast h

theorem py_suffix_cases (name : Seg) :
    py_suffix name = [] ∨ ∃ i, i < name.length ∧ py_suffix name = name.drop i := by
  unfold py_suffix
  cases h : rfindDot name with
  | none => exact Or.inl rfl
  | some i =>
    dsimp only
    split
    · next hc => exact Or.inr ⟨i, by omega, rfl⟩
    · exact Or.inl rfl

theorem take_sub_append (name : Seg) :
    name.take (name.length - (py_suffix name).length) ++ py_suffix name = name := by
  rcases py_suffix_cases name with h | ⟨i, hi, h⟩
  · rw [h]
    simp
  · rw [h, List.length_drop, show name.length - (name.length - i) = i by omega]
    exact List.take_append_drop i name

theorem jinjaName_eq (name : Seg) : jinjaName name = name ++ jinjaExt := by
  unfold jinjaName py_stem
  rw [← List.append_assoc, take_sub_append]

theorem condMoveFold_append (cond : FPath → Prop) [DecidablePred cond] (tgt : FPath → FPath)
    (l1 l2 : List FPath) (t : FS) :
    condMoveFold cond tgt (l1 ++ l2) t = condMoveFold cond tgt l2 (condMoveFold cond tgt l1 t) := by
  unfold condMoveFold
  rw [List.foldl_append]

/-- The template-marker pass, characterised: every file of the
deduplicated changed set whose name does not already carry the .jinja
extension is renamed exactly once, by appending .jinja to its name, while
files already carrying the extension are left unrenamed.  The hypotheses
say that the changed paths are files of a well-formed tree (no file path
is a prefix of another) and that no target name already exists. -/
theorem markerStep_spec (changed : List FPath) (fs : FS)
    (hfiles : ∀ p ∈ changed, p ∈ fs.map Prod.fst)
    (hne : ∀ p ∈ changed, p ≠ [])
    (hpfx : ∀ p ∈ fs.map Prod.fst, ∀ q ∈ fs.map Prod.fst, p ≠ q → ¬p <+: q)
    (hfresh : ∀ p ∈ changed, ∀ f ∈ fs.map Prod.fst,
      ¬(p.dropLast ++ [jinjaName (lastSeg p)]) <+: f) :
    ∀ p ∈ changed, ∀ c, (p, c) ∈ fs →
      (py_suffix (lastSeg p) = jinjaExt → (p, c) ∈ markerStep changed fs) ∧
      (py_suffix (lastSeg p) ≠ jinjaExt →
        (p.dropLast ++ [lastSeg p ++ jinjaExt], c) ∈ markerStep changed fs ∧
        ∀ c', (p, c') ∉ markerStep changed fs) := by
  intro p hp c hc
  have hpmem : p ∈ fs.map Prod.fst := hfiles p hp
  have hpne : p ≠ [] := hne p hp
  have hplen : 0 < p.length := List.length_pos.mpr hpne
  have hdlp : p.dropLast <+: p := ⟨[lastSeg p], dropLast_lastSeg hpne⟩
  have htplen : (p.dropLast ++ [jinjaName (lastSeg p)]).length = p.length := by
    rw [List.length_append, List.length_dropLast]
    simp
    omega
  have htp_take : ∀ q : FPath, q <+: p.dropLast ++ [jinjaName (lastSeg p)] →
      q.length < p.length → q <+: p := by
    intro q hq hlen
    have h1 : q.length ≤ p.dropLast.length := by
      rw [List.length_dropLast]
      omega
    exact ((List.isPrefix_append_of_length h1).mp hq).trans hdlp
  constructor
  · intro hj
    unfold markerStep
    refine condMoveFold_keep _ _ changed.dedup fs p c hc ?_
    intro q hq hcq
    have hq' : q ∈ changed := List.mem_dedup.mp hq
    have hqp : q ≠ p := fun h => hcq (by rw [h]; exact hj)
    exact ⟨hpfx q (hfiles q hq') p hpmem hqp, hfresh q hq' p hpmem⟩
  · intro hnj
    have hpd : p ∈ changed.dedup := List.mem_dedup.mpr hp
    obtain ⟨l1, l2, hsplit⟩ := List.append_of_mem hpd
    have hnd : (l1 ++ p :: l2).Nodup := by rw [← hsplit]; exact List.nodup_dedup changed
    have hp1 : p ∉ l1 := fun hmem =>
      (List.nodup_append.mp hnd).2.2 hmem (List.mem_cons_self p l2)
    have hp2 : p ∉ l2 := by
      have := (List.nodup_append.mp hnd).2.1
      exact (List.nodup_cons.mp this).1
    have hl1sub : ∀ q ∈ l1, q ∈ changed := fun q hq =>
      List.mem_dedup.mp (by rw [hsplit]; exact List.mem_append_left _ hq)
    have hl2sub : ∀ q ∈ l2, q ∈ changed := fun q hq =>
      List.mem_dedup.mp (by rw [hsplit]; exact List.mem_append_right _ (List.mem_cons_of_mem p hq))
    unfold markerStep
    rw [hsplit, condMoveFold_append]
    have hstep1 : (p, c) ∈ condMoveFold (fun r => ¬py_suffix (lastSeg r) = jinjaExt)
        (fun r => r.dropLast ++ [jinjaName (lastSeg r)]) l1 fs := by
      refine condMoveFold_keep _ _ l1 fs p c hc ?_
      intro q hq _
      have hq' : q ∈ changed := hl1sub q hq
      have hqp : q ≠ p := fun h => hp1 (h ▸ hq)
      exact ⟨hpfx q (hfiles q hq') p hpmem hqp, hfresh q hq' p hpmem⟩
    have hfold_cons : condMoveFold (fun r => ¬py_suffix (lastSeg r) = jinjaExt)
        (fun r => r.dropLast ++ [jinjaName (lastSeg r)]) (p :: l2)
          (condMoveFold (fun r => ¬py_suffix (lastSeg r) = jinjaExt)
            (fun r => r.dropLast ++ [jinjaName (lastSeg r)]) l1 fs) =
        condMoveFold (fun r => ¬py_suffix (lastSeg r) = jinjaExt)
          (fun r => r.dropLast ++ [jinjaName (lastSeg r)]) l2
          (move_path (condMoveFold (fun r => ¬py_suffix (lastSeg r) = jinjaExt)
            (fun r => r.dropLast ++ [jinjaName (lastSeg r)]) l1 fs) p
            (p.dropLast ++ [jinjaName (lastSeg p)])) := by
      unfold condMoveFold
      simp only [List.foldl_cons, if_pos hnj]
    rw [hfold_cons]
    have hfreshp := hfresh p hp
    have hmv : (p.dropLast ++ [jinjaName (lastSeg p)], c) ∈
        move_path (condMoveFold (fun r => ¬py_suffix (lastSeg r) = jinjaExt)
          (fun r => r.dropLast ++ [jinjaName (lastSeg r)]) l1 fs) p
          (p.dropLast ++ [jinjaName (lastSeg p)]) := move_path_moved hstep1
    have hgone : ∀ c', (p, c') ∉
        move_path (condMoveFold (fun r => ¬py_suffix (lastSeg r) = jinjaExt)
          (fun r => r.dropLast ++ [jinjaName (lastSeg r)]) l1 fs) p
          (p.dropLast ++ [jinjaName (lastSeg p)]) :=
      move_path_gone (hfreshp p hpmem)
    have hsurv : ∀ q ∈ l2, ¬py_suffix (lastSeg q) = jinjaExt →
        ¬q <+: p.dropLast ++ [jinjaName (lastSeg p)] ∧
        ¬q.dropLast ++ [jinjaName (lastSeg q)] <+: p.dropLast ++ [jinjaName (lastSeg p)] := by
      intro q hq _
      have hq' : q ∈ changed := hl2sub q hq
      have hqp : q ≠ p := fun h => hp2 (h ▸ hq)
      have hqmem : q ∈ fs.map Prod.fst := hfiles q hq'
      have hqne : q ≠ [] := hne q hq'
      have hqlen : 0 < q.length := List.length_pos.mpr hqne
      constructor
      · intro hpre
        have hle : q.length ≤ p.length := by
          have := hpre.length_le
          rw [htplen] at this
          exact this
        rcases Nat.lt_or_ge q.length p.length with hlt | hge
        · exact hpfx q hqmem p hpmem hqp (htp_take q hpre hlt)
        · have heq : q.length = p.length := le_antisymm hle hge
          have : q = p.dropLast ++ [jinjaName (lastSeg p)] :=
            hpre.eq_of_length (by rw [htplen, heq])
          exact hfreshp q hqmem (by rw [← this])
      · intro hpre
        have htqlen : (q.dropLast ++ [jinjaName (lastSeg q)]).length = q.length := by
          rw [List.length_append, List.length_dropLast]
          simp
          omega
        have hle : q.length ≤ p.length := by
          have := hpre.length_le
          rw [htplen, htqlen] at this
          exact this
        rcases Nat.lt_or_ge q.length p.length with hlt | hge
        · have h1 : q.dropLast ++ [jinjaName (lastSeg q)] <+: p :=
            htp_take _ hpre (by rw [htqlen]; exact hlt)
          exact hfresh q hq' p hpmem h1
        · have heq : q.length = p.length := le_antisymm hle hge
          have heq2 : q.dropLast ++ [jinjaName (lastSeg q)] =
              p.dropLast ++ [jinjaName (lastSeg p)] :=
            hpre.eq_of_length (by rw [htplen, htqlen, heq])
          have hlen2 : q.dropLast.length = p.dropLast.length := by
            rw [List.length_dropLast, List.length_dropLast, heq]
          obtain ⟨hd, ht⟩ := List.append_inj heq2 hlen2
          have hj : jinjaName (lastSeg q) = jinjaName (lastSeg p) := by
            injection ht
          rw [jinjaName_eq, jinjaName_eq] at hj
          have hlast : lastSeg q = lastSeg p := List.append_cancel_right hj
          have : q = p := by
            rw [← dropLast_lastSeg hqne, ← dropLast_lastSeg hpne, hd, hlast]
          exact hqp this
    refine ⟨?_, ?_⟩
    · rw [← jinjaName_eq]
      exact condMoveFold_keep _ _ l2 _ _ c hmv hsurv
    · intro c' hmem
      rcases condMoveFold_mem_cases _ _ l2 _ p c' hmem with h1 | ⟨q, hq, hcq, hpq⟩
      · exact hgone c' h1
      · exact hfresh q (hl2sub q hq) p hpmem hpq

/-- C6: every file in the deduplicated changed set whose name does not
already end in the .jinja extension (in the pathlib sense: its final
suffix is not .jinja) is renamed exactly once by appending .jinja to its
name, and files already ending in .jinja are left unrenamed; in
particular, a source pyproject.toml containing the literal mapped from
project_name ends up as pyproject.toml.jinja with the placeholder
substituted for every occurrence of the literal. -/
theorem C6_marker_pass :
    (∀ (changed : List FPath) (fs : FS),
      (∀ p ∈ changed, p ∈ fs.map Prod.fst) →
      (∀ p ∈ changed, p ≠ []) →
      (∀ p ∈ fs.map Prod.fst, ∀ q ∈ fs.map Prod.fst, p ≠ q → ¬p <+: q) →
      (∀ p ∈ changed, ∀ f ∈ fs.map Prod.fst,
        ¬(p.dropLast ++ [jinjaName (lastSeg p)]) <+: f) →
      ∀ p ∈ changed, ∀ c, (p, c) ∈ fs →
        (py_suffix (lastSeg p) = jinjaExt → (p, c) ∈ markerStep changed fs) ∧
        (py_suffix (lastSeg p) ≠ jinjaExt →
          (p.dropLast ++ [lastSeg p ++ jinjaExt], c) ∈ markerStep changed fs ∧
          ∀ c', (p, c') ∉ markerStep changed fs)) ∧
    (∃ r : RunResult,
      mainModel false 0 id
        ⟨[([ "pyproject.toml".data ],
            "name = fractal_tasks_template\nfractal_tasks_template".data)], [], [],
          some ⟨some [("project_name".data, "fractal_tasks_template".data)], some []⟩⟩ =
        Except.ok r ∧
      r.world.template =
        [([ "pyproject.toml.jinja".data ],
          "name = \x7b\x7b project_name \x7d\x7d\n\x7b\x7b project_name \x7d\x7d".data)]) := by
  constructor
  · exact markerStep_spec
  · exact ⟨_, rfl, by decide⟩

/-- Witness for C6: a one-file tree whose changed file a.txt is renamed to
a.txt.jinja. -/
theorem C6_marker_pass_witness :
    (([ "a.txt".data ] : FPath).dropLast ++ [lastSeg [ "a.txt".data ] ++ jinjaExt],
        "x".data) ∈
      markerStep [[ "a.txt".data ]] [([ "a.txt".data ], "x".data)] :=
  ((C6_marker_pass.1 [[ "a.txt".data ]] [([ "a.txt".data ], "x".data)]
    (by decide) (by decide) (by decide) (by decide)
    [ "a.txt".data ] (by decide) "x".data (by decide)).2 (by decide)).1

theorem path_generator_nodup (fs : FS) : (path_generator fs).Nodup :=
  List.Nodup.filter _ (List.nodup_dedup _)

theorem path_generator_ne_nil (fs : FS) : ∀ q ∈ path_generator fs, q ≠ [] := by
  intro q hq
  unfold path_generator at hq
  have hq1 := (List.mem_filter.mp hq).1
  have hq2 := List.mem_dedup.mp hq1
  obtain ⟨f, _, hqf⟩ := List.mem_flatMap.mp hq2
  unfold pathDepths at hqf
  obtain ⟨i, hi, hqi⟩ := List.mem_map.mp hqf
  have hif : i < f.length := List.mem_range.mp hi
  intro hnil
  rw [hnil] at hqi
  have hlen := congrArg List.length hqi
  rw [List.length_take] at hlen
  simp only [List.length_nil] at hlen
  omega

/-- C5: for a (substring, guard) pair, every scanned file of the
destination tree whose base name contains the substring is renamed so that
its new base name is the open conditional wrapper with the guard, followed
by the original stem, followed by the close wrapper, with the .jinja
extension appended; the match produces exactly one rename: the old path
disappears and the singly-wrapped target carries the old content (no
fixed-point restart occurs; compounding across several pairs happens only
through the outer loop over pairs).  The hypotheses rule out a matching
ancestor directory moving the file first, a second matching path sharing
the same wrapped target, and a pre-existing path under a wrapped
target. -/
theorem C5_conditional_wrap (s g : Seg) (fs : FS) (p : FPath) (c : Content)
    (hscan : p ∈ path_generator fs)
    (hfile : (p, c) ∈ fs)
    (hm : s <:+: lastSeg p)
    (hanc : ∀ q ∈ path_generator fs, s <:+: lastSeg q → q ≠ p → ¬q <+: p)
    (hcoll : ∀ q ∈ path_generator fs, s <:+: lastSeg q → q ≠ p →
      q.dropLast ++ [wrapName g (py_stem (lastSeg q))] ≠
        p.dropLast ++ [wrapName g (py_stem (lastSeg p))])
    (hfresh : ∀ q ∈ path_generator fs, s <:+: lastSeg q →
      ∀ x ∈ path_generator fs, ¬(q.dropLast ++ [wrapName g (py_stem (lastSeg q))]) <+: x) :
    (p.dropLast ++ [wrapName g (py_stem (lastSeg p))], c) ∈ conditionalStep [(s, g)] fs ∧
    ∀ c', (p, c') ∉ conditionalStep [(s, g)] fs := by
  have hcstep : conditionalStep [(s, g)] fs =
      condMoveFold (fun r => s <:+: lastSeg r)
        (fun r => r.dropLast ++ [wrapName g (py_stem (lastSeg r))])
        (path_generator fs) fs := rfl
  rw [hcstep]
  have hpne : p ≠ [] := path_generator_ne_nil fs p hscan
  have hplen : 0 < p.length := List.length_pos.mpr hpne
  have hdlp : p.dropLast <+: p := ⟨[lastSeg p], dropLast_lastSeg hpne⟩
  have htplen : (p.dropLast ++ [wrapName g (py_stem (lastSeg p))]).length = p.length := by
    rw [List.length_append, List.length_dropLast]
    simp
    omega
  have htp_take : ∀ q : FPath, q <+: p.dropLast ++ [wrapName g (py_stem (lastSeg p))] →
      q.length < p.length → q <+: p := by
    intro q hq hlen
    have h1 : q.length ≤ p.dropLast.length := by
      rw [List.length_dropLast]
      omega
    exact ((List.isPrefix_append_of_length h1).mp hq).trans hdlp
  obtain ⟨l1, l2, hsplit⟩ := List.append_of_mem hscan
  have hnd : (l1 ++ p :: l2).Nodup := by rw [← hsplit]; exact path_generator_nodup fs
  have hp1 : p ∉ l1 := fun hmem =>
    (List.nodup_append.mp hnd).2.2 hmem (List.mem_cons_self p l2)
  have hp2 : p ∉ l2 := (List.nodup_cons.mp (List.nodup_append.mp hnd).2.1).1
  have hl1sub : ∀ q ∈ l1, q ∈ path_generator fs := fun q hq => by
    rw [hsplit]; exact List.mem_append_left _ hq
  have hl2sub : ∀ q ∈ l2, q ∈ path_generator fs := fun q hq => by
    rw [hsplit]; exact List.mem_append_right _ (List.mem_cons_of_mem p hq)
  rw [hsplit, condMoveFold_append]
  have hstep1 : (p, c) ∈ condMoveFold (fun r => s <:+: lastSeg r)
      (fun r => r.dropLast ++ [wrapName g (py_stem (lastSeg r))]) l1 fs := by
    refine condMoveFold_keep _ _ l1 fs p c hfile ?_
    intro q hq hcq
    have hq' : q ∈ path_generator fs := hl1sub q hq
    have hqp : q ≠ p := fun h => hp1 (h ▸ hq)
    exact ⟨hanc q hq' hcq hqp, hfresh q hq' hcq p hscan⟩
  have hfold_cons : condMoveFold (fun r => s <:+: lastSeg r)
      (fun r => r.dropLast ++ [wrapName g (py_stem (lastSeg r))]) (p :: l2)
        (condMoveFold (fun r => s <:+: lastSeg r)
          (fun r => r.dropLast ++ [wrapName g (py_stem (lastSeg r))]) l1 fs) =
      condMoveFold (fun r => s <:+: lastSeg r)
        (fun r => r.dropLast ++ [wrapName g (py_stem (lastSeg r))]) l2
        (move_path (condMoveFold (fun r => s <:+: lastSeg r)
          (fun r => r.dropLast ++ [wrapName g (py_stem (lastSeg r))]) l1 fs) p
          (p.dropLast ++ [wrapName g (py_stem (lastSeg p))])) := by
    unfold condMoveFold
    simp only [List.foldl_cons, if_pos hm]
  rw [hfold_cons]
  have hmv := @move_path_moved _ _ (p.dropLast ++ [wrapName g (py_stem (lastSeg p))]) _ hstep1
  have hgone := @move_path_gone
    (condMoveFold (fun r => s <:+: lastSeg r)
      (fun r => r.dropLast ++ [wrapName g (py_stem (lastSeg r))]) l1 fs) _ _
    (hfresh p hscan hm p hscan)
  have hsurv : ∀ q ∈ l2, s <:+: lastSeg q →
      ¬q <+: p.dropLast ++ [wrapName g (py_stem (lastSeg p))] ∧
      ¬q.dropLast ++ [wrapName g (py_stem (lastSeg q))] <+:
        p.dropLast ++ [wrapName g (py_stem (lastSeg p))] := by
    intro q hq hcq
    have hq' : q ∈ path_generator fs := hl2sub q hq
    have hqp : q ≠ p := fun h => hp2 (h ▸ hq)
    have hqne : q ≠ [] := path_generator_ne_nil fs q hq'
    have hqlen : 0 < q.length := List.length_pos.mpr hqne
    constructor
    · intro hpre
      have hle : q.length ≤ p.length := by
        have := hpre.length_le
        rw [htplen] at this
        exact this
      rcases Nat.lt_or_ge q.length p.length with hlt | hge
      · exact hanc q hq' hcq hqp (htp_take q hpre hlt)
      · have heq : q.length = p.length := le_antisymm hle hge
        have hqtp : q = p.dropLast ++ [wrapName g (py_stem (lastSeg p))] :=
          hpre.eq_of_length (by rw [htplen, heq])
        exact hfresh p hscan hm q hq' (by rw [hqtp])
    · intro hpre
      have htqlen : (q.dropLast ++ [wrapName g (py_stem (lastSeg q))]).length = q.length := by
        rw [List.length_append, List.length_dropLast]
        simp
        omega
      have hle : q.length ≤ p.length := by
        have := hpre.length_le
        rw [htplen, htqlen] at this
        exact this
      rcases Nat.lt_or_ge q.length p.length with hlt | hge
      · exact hfresh q hq' hcq p hscan (htp_take _ hpre (by rw [htqlen]; exact hlt))
      · exact hcoll q hq' hcq hqp
          (hpre.eq_of_length (by rw [htplen, htqlen, le_antisymm hle hge]))
  refine ⟨condMoveFold_keep _ _ l2 _ _ c hmv hsurv, ?_⟩
  intro c' hmem
  rcases condMoveFold_mem_cases _ _ l2 _ p c' hmem with h1 | ⟨q, hq, hcq, hpq⟩
  · exact hgone c' h1
  · exact hfresh q (hl2sub q hq) hcq p hscan hpq

/-- Witness for C5: the spec scenario file thresholding_label_task.py,
matching pattern thresholding with guard include_segmentation_task, is
renamed to the wrapped .jinja name. -/
theorem C5_conditional_wrap_witness :
    (([ "thresholding_label_task.py".data ] : FPath).dropLast ++
        [wrapName "include_segmentation_task".data
          (py_stem (lastSeg [ "thresholding_label_task.py".data ]))], "code".data) ∈
      conditionalStep [("thresholding".data, "include_segmentation_task".data)]
        [([ "thresholding_label_task.py".data ], "code".data)] :=
  (C5_conditional_wrap "thresholding".data "include_segmentation_task".data
    [([ "thresholding_label_task.py".data ], "code".data)]
    [ "thresholding_label_task.py".data ] "code".data
    (by decide) (by decide) (by decide) (by decide) (by decide) (by decide)).1

/-! ## Static merge lemmas -/

theorem exceptBind_ok {ε α β : Type} {x : Except ε α} {g : α → Except ε β} {r : β}
    (h : (x >>= g) = Except.ok r) : ∃ m, x = Except.ok m ∧ g m = Except.ok r := by
  cases x with
  | error e =>
    rw [show ((Except.error e : Except ε α) >>= g) = Except.error e from rfl] at h
    exact Except.noConfusion h
  | ok m => exact ⟨m, rfl, h⟩

theorem mergeStep_cons {σ : List FPath} {t t' : FS} {e : Seg × Content}
    {l : List (Seg × Content)} (h : mergeStep (e :: l) σ t = Except.ok t') :
    ∃ tm, mergeOne σ t e = Except.ok tm ∧ mergeStep l σ tm = Except.ok t' := by
  unfold mergeStep at h
  rw [List.foldlM_cons] at h
  exact exceptBind_ok h

theorem mergeStep_append {σ : List FPath} {t t' : FS} {a b : List (Seg × Content)}
    (h : mergeStep (a ++ b) σ t = Except.ok t') :
    ∃ tm, mergeStep a σ t = Except.ok tm ∧ mergeStep b σ tm = Except.ok t' := by
  unfold mergeStep at h ⊢
  rw [List.foldlM_append] at h
  exact exceptBind_ok h

theorem lastSeg_single (x : Seg) : lastSeg [x] = x := rfl

theorem mergeOne_keep {σ : List FPath} {t : FS} {e : Seg × Content} {t' : FS}
    (h : mergeOne σ t e = Except.ok t') {p : FPath} {c : Content}
    (hin : (p, c) ∈ t) (hname : lastSeg p ≠ e.1) : (p, c) ∈ t' := by
  unfold mergeOne at h
  split at h
  · next q hq =>
    split at h
    · injection h with h'
      subst h'
      refine List.mem_append_left _ (List.mem_filter.mpr ⟨hin, ?_⟩)
      have hbeq : (lastSeg q == e.1) = true :=
        @List.find?_some FPath (fun r => lastSeg r == e.1) q σ hq
      have hqn : lastSeg q = e.1 := eq_of_beq hbeq
      simp only [decide_eq_true_eq]
      intro hpq
      exact hname (by rw [hpq, hqn])
    · exact Except.noConfusion h
  · injection h with h'
    subst h'
    refine List.mem_append_left _ (List.mem_filter.mpr ⟨hin, ?_⟩)
    simp only [decide_eq_true_eq]
    intro hpq
    exact hname (by rw [hpq, lastSeg_single])

theorem mergeOne_mem_cases {σ : List FPath} {t : FS} {e : Seg × Content} {t' : FS}
    (h : mergeOne σ t e = Except.ok t') {x : FPath} {cx : Content}
    (hx : (x, cx) ∈ t') : (x, cx) ∈ t ∨ lastSeg x = e.1 := by
  unfold mergeOne at h
  split at h
  · next q hq =>
    split at h
    · injection h with h'
      subst h'
      rcases List.mem_append.mp hx with h1 | h2
      · exact Or.inl (List.mem_filter.mp h1).1
      · have hbeq : (lastSeg q == e.1) = true :=
          @List.find?_some FPath (fun r => lastSeg r == e.1) q σ hq
        have hqn : lastSeg q = e.1 := eq_of_beq hbeq
        have : (x, cx) = (q, e.2) := List.mem_singleton.mp h2
        exact Or.inr (by rw [show x = q from congrArg Prod.fst this, hqn])
    · exact Except.noConfusion h
  · injection h with h'
    subst h'
    rcases List.mem_append.mp hx with h1 | h2
    · exact Or.inl (List.mem_filter.mp h1).1
    · have : (x, cx) = ([e.1], e.2) := List.mem_singleton.mp h2
      exact Or.inr (by rw [show x = [e.1] from congrArg Prod.fst this, lastSeg_single])

theorem mergeStep_keep {σ : List FPath} :
    ∀ (l : List (Seg × Content)) (t t' : FS), mergeStep l σ t = Except.ok t' →
      ∀ p c, (p, c) ∈ t → (∀ e ∈ l, lastSeg p ≠ e.1) → (p, c) ∈ t' := by
  intro l
  induction l with
  | nil =>
    intro t t' h p c hin _
    have : t = t' := by
      unfold mergeStep at h
      injection h
    rw [← this]
    exact hin
  | cons e l ih =>
    intro t t' h p c hin hne
    obtain ⟨tm, h1, h2⟩ := mergeStep_cons h
    exact ih tm t' h2 p c
      (mergeOne_keep h1 hin (hne e (List.mem_cons_self e l)))
      (fun x hx => hne x (List.mem_cons_of_mem e hx))

theorem mergeStep_mem_cases {σ : List FPath} :
    ∀ (l : List (Seg × Content)) (t t' : FS), mergeStep l σ t = Except.ok t' →
      ∀ x cx, (x, cx) ∈ t' → (x, cx) ∈ t ∨ ∃ e ∈ l, lastSeg x = e.1 := by
  intro l
  induction l with
  | nil =>
    intro t t' h x cx hx
    have : t = t' := by
      unfold mergeStep at h
      injection h
    rw [this]
    exact Or.inl hx
  | cons e l ih =>
    intro t t' h x cx hx
    obtain ⟨tm, h1, h2⟩ := mergeStep_cons h
    rcases ih tm t' h2 x cx hx with h3 | ⟨e', he', hn⟩
    · rcases mergeOne_mem_cases h1 h3 with h4 | h4
      · exact Or.inl h4
      · exact Or.inr ⟨e, List.mem_cons_self e l, h4⟩
    · exact Or.inr ⟨e', List.mem_cons_of_mem e he', hn⟩

/-- C4: in the static-file merge, if the post-rename destination tree and
the static overlay both contain a file with base name X, the merged tree
contains a file named X carrying the overlay file's content, at the path
(hence in the parent directory) where a destination file named X
previously lived; if no destination file has base name X, the overlay
file is copied into the destination tree root.  The hypotheses: X is one
of the overlay entries, overlay base names are distinct (a flat
directory), the snapshot contains every scanned file named X, and the
merge completed without error. -/
theorem C4_static_overlay (ov : List (Seg × Content)) (σ : List FPath) (t t5 : FS)
    (o1 o2 : List (Seg × Content)) (X : Seg) (c : Content)
    (hsplit : ov = o1 ++ (X, c) :: o2)
    (hnames : (ov.map Prod.fst).Nodup)
    (hσ : ∀ f ∈ t.map Prod.fst, lastSeg f = X → f ∈ σ)
    (hok : mergeStep ov σ t = Except.ok t5) :
    ((∃ f ∈ t.map Prod.fst, lastSeg f = X) →
      ∃ q ∈ t.map Prod.fst, lastSeg q = X ∧ (q, c) ∈ t5) ∧
    ((∀ f ∈ t.map Prod.fst, lastSeg f ≠ X) → ([X], c) ∈ t5) := by
  subst hsplit
  have hnames' := hnames
  rw [List.map_append, List.map_cons] at hnames'
  have hX1 : ∀ e ∈ o1, X ≠ e.1 := by
    intro e he hXe
    exact (List.nodup_append.mp hnames').2.2 (List.mem_map.mpr ⟨e, he, rfl⟩)
      (by rw [hXe]; exact List.mem_cons_self _ _)
  have hX2 : ∀ e ∈ o2, X ≠ e.1 := by
    intro e he hXe
    have h2 := (List.nodup_append.mp hnames').2.1
    exact (List.nodup_cons.mp h2).1 (by rw [hXe]; exact List.mem_map.mpr ⟨e, he, rfl⟩)
  obtain ⟨t1, h1, h2'⟩ := mergeStep_append hok
  obtain ⟨t2, h2, h3⟩ := mergeStep_cons h2'
  -- analyse the (X, c) step
  unfold mergeOne at h2
  constructor
  · rintro ⟨f, hf, hfX⟩
    obtain ⟨cf, hcf⟩ : ∃ cf, (f, cf) ∈ t := by
      obtain ⟨⟨f', cf⟩, hmem, hfst⟩ := List.mem_map.mp hf
      have hff : f' = f := hfst
      exact ⟨cf, by rw [← hff]; exact hmem⟩
    split at h2
    · next q hq =>
      split at h2
      · next hguard =>
        injection h2 with h2e
        subst h2e
        -- q is a file of t1, hence of t, with base name X
        have hbeq : (lastSeg q == X) = true :=
          @List.find?_some FPath (fun r => lastSeg r == X) q σ hq
        have hqX : lastSeg q = X := eq_of_beq hbeq
        obtain ⟨eq, heq, heq2⟩ := List.any_eq_true.mp hguard
        have hq1 : (q, eq.2) ∈ t1 := by
          have : eq.1 = q := eq_of_beq heq2
          rw [← this]
          exact heq
        have hqt : (q, eq.2) ∈ t := by
          rcases mergeStep_mem_cases o1 t t1 h1 q eq.2 hq1 with h4 | ⟨e, he, hn⟩
          · exact h4
          · exact absurd (by rw [← hn, hqX]) (hX1 e he)
        refine ⟨q, List.mem_map.mpr ⟨(q, eq.2), hqt, rfl⟩, hqX, ?_⟩
        refine mergeStep_keep o2 _ t5 h3 q c
          (List.mem_append_right _ (List.mem_singleton.mpr rfl)) ?_
        intro e he
        rw [hqX]
        exact hX2 e he
      · exact Except.noConfusion h2
    · next hq =>
      exfalso
      have hfσ : f ∈ σ := hσ f hf hfX
      have := List.find?_eq_none.mp hq f hfσ
      exact this (by rw [hfX]; exact beq_self_eq_true X)
  · intro hnoX
    split at h2
    · next q hq =>
      split at h2
      · next hguard =>
        exfalso
        have hbeq : (lastSeg q == X) = true :=
          @List.find?_some FPath (fun r => lastSeg r == X) q σ hq
        have hqX : lastSeg q = X := eq_of_beq hbeq
        obtain ⟨eq, heq, heq2⟩ := List.any_eq_true.mp hguard
        have hq1 : (q, eq.2) ∈ t1 := by
          have : eq.1 = q := eq_of_beq heq2
          rw [← this]
          exact heq
        have hqt : (q, eq.2) ∈ t := by
          rcases mergeStep_mem_cases o1 t t1 h1 q eq.2 hq1 with h4 | ⟨e, he, hn⟩
          · exact h4
          · exact absurd (by rw [← hn, hqX]) (hX1 e he)
        exact hnoX q (List.mem_map.mpr ⟨(q, eq.2), hqt, rfl⟩) hqX
      · exact Except.noConfusion h2
    · injection h2 with h2e
      subst h2e
      refine mergeStep_keep o2 _ t5 h3 [X] c
        (List.mem_append_right _ (List.mem_singleton.mpr rfl)) ?_
      intro e he
      rw [lastSeg_single]
      exact hX2 e he

/-- Witness for C4 at a concrete two-file tree with a matching overlay
entry and at a tree without one. -/
theorem C4_static_overlay_witness :
    (∃ q ∈ ([([ "a".data, "x".data ], "A".data), ([ "b".data, "x".data ], "B".data)] : FS).map
        Prod.fst, lastSeg q = "x".data ∧
        (q, "S".data) ∈ [([ "b".data, "x".data ], "B".data), ([ "a".data, "x".data ], "S".data)]) :=
  (C4_static_overlay [("x".data, "S".data)]
    [[ "a".data, "x".data ], [ "b".data, "x".data ]]
    [([ "a".data, "x".data ], "A".data), ([ "b".data, "x".data ], "B".data)]
    [([ "b".data, "x".data ], "B".data), ([ "a".data, "x".data ], "S".data)]
    [] [] "x".data "S".data rfl (by decide) (by decide) (by decide)).1
    ⟨[ "a".data, "x".data ], by decide, by decide⟩

/-- C10 (implicit): in the static-file merge, for each overlay entry at
most one destination file with a matching base name is deleted and
replaced - the search over the pre-merge snapshot stops at its first
match - and every other destination file sharing that base name keeps its
path and content; moreover, which of several same-named candidates is
replaced depends on the snapshot enumeration order, which the code draws
from an unordered set. -/
theorem C10_merge_first_match_only (ov : List (Seg × Content)) (σ : List FPath)
    (t t5 : FS) (o1 o2 : List (Seg × Content)) (X : Seg) (c : Content)
    (hsplit : ov = o1 ++ (X, c) :: o2)
    (hnames : (ov.map Prod.fst).Nodup)
    (hσ : ∀ f ∈ t.map Prod.fst, lastSeg f = X → f ∈ σ)
    (hok : mergeStep ov σ t = Except.ok t5) :
    (∀ f cf, (f, cf) ∈ t → lastSeg f = X →
      σ.find? (fun q => lastSeg q == X) ≠ some f → (f, cf) ∈ t5) ∧
    (mergeStep [("x".data, "S".data)]
        [[ "a".data, "x".data ], [ "b".data, "x".data ]]
        [([ "a".data, "x".data ], "A".data), ([ "b".data, "x".data ], "B".data)] ≠
      mergeStep [("x".data, "S".data)]
        [[ "b".data, "x".data ], [ "a".data, "x".data ]]
        [([ "a".data, "x".data ], "A".data), ([ "b".data, "x".data ], "B".data)]) := by
  constructor
  · subst hsplit
    have hnames' := hnames
    rw [List.map_append, List.map_cons] at hnames'
    have hX1 : ∀ e ∈ o1, X ≠ e.1 := by
      intro e he hXe
      exact (List.nodup_append.mp hnames').2.2 (List.mem_map.mpr ⟨e, he, rfl⟩)
        (by rw [hXe]; exact List.mem_cons_self _ _)
    have hX2 : ∀ e ∈ o2, X ≠ e.1 := by
      intro e he hXe
      have h2 := (List.nodup_append.mp hnames').2.1
      exact (List.nodup_cons.mp h2).1 (by rw [hXe]; exact List.mem_map.mpr ⟨e, he, rfl⟩)
    intro f cf hf hfX hfind
    obtain ⟨t1, h1, h2'⟩ := mergeStep_append hok
    obtain ⟨t2, h2, h3⟩ := mergeStep_cons h2'
    have hf1 : (f, cf) ∈ t1 := by
      refine mergeStep_keep o1 t t1 h1 f cf hf ?_
      intro e he
      rw [hfX]
      exact hX1 e he
    have hf2 : (f, cf) ∈ t2 := by
      unfold mergeOne at h2
      split at h2
      · next q hq =>
        split at h2
        · injection h2 with h2e
          subst h2e
          refine List.mem_append_left _ (List.mem_filter.mpr ⟨hf1, ?_⟩)
          simp only [decide_eq_true_eq]
          intro hfq
          exact hfind (by rw [← hfq] at hq; exact hq)
        · exact Except.noConfusion h2
      · next hq =>
        exfalso
        have := List.find?_eq_none.mp hq f (hσ f (List.mem_map.mpr ⟨(f, cf), hf, rfl⟩) hfX)
        exact this (by rw [hfX]; exact beq_self_eq_true X)
    refine mergeStep_keep o2 t2 t5 h3 f cf hf2 ?_
    intro e he
    rw [hfX]
    exact hX2 e he
  · decide

/-- Witness for C10: the non-first candidate b/x keeps its content. -/
theorem C10_merge_first_match_only_witness :
    ([ "b".data, "x".data ], "B".data) ∈
      ([([ "b".data, "x".data ], "B".data), ([ "a".data, "x".data ], "S".data)] : FS) :=
  (C10_merge_first_match_only [("x".data, "S".data)]
    [[ "a".data, "x".data ], [ "b".data, "x".data ]]
    [([ "a".data, "x".data ], "A".data), ([ "b".data, "x".data ], "B".data)]
    [([ "b".data, "x".data ], "B".data), ([ "a".data, "x".data ], "S".data)]
    [] [] "x".data "S".data rfl (by decide) (by decide) (by decide)).1
    [ "b".data, "x".data ] "B".data (by decide) (by decide) (by decide)

/-! ## Rename-loop termination (C2) -/

theorem lastSeg_append_ne_nil (a : FPath) {b : FPath} (h : b ≠ []) :
    lastSeg (a ++ b) = lastSeg b := by
  unfold lastSeg
  rw [List.getLastD_eq_getLast?, List.getLastD_eq_getLast?,
    List.getLast?_append_of_ne_nil a h]

theorem lastSeg_concat (a : FPath) (x : Seg) : lastSeg (a ++ [x]) = x := by
  rw [lastSeg_append_ne_nil a (by simp)]
  rfl

theorem prefix_append_same {y l x : List Seg} (h : l <+: x) : y ++ l <+: y ++ x := by
  obtain ⟨t, ht⟩ := h
  exact ⟨t, by rw [← ht, List.append_assoc]⟩

theorem pathDepths_mem {f q : FPath} : q ∈ pathDepths f ↔ q ≠ [] ∧ q <+: f := by
  unfold pathDepths
  constructor
  · intro h
    obtain ⟨i, hi, hq⟩ := List.mem_map.mp h
    have hif : i < f.length := List.mem_range.mp hi
    subst hq
    refine ⟨?_, take_isPre _ _⟩
    intro hnil
    have := congrArg List.length hnil
    rw [List.length_take] at this
    simp only [List.length_nil] at this
    omega
  · rintro ⟨hne, hpre⟩
    have hlen : 0 < q.length := List.length_pos.mpr hne
    have hql : q.length ≤ f.length := hpre.length_le
    refine List.mem_map.mpr ⟨q.length - 1, List.mem_range.mpr (by omega), ?_⟩
    rw [show q.length - 1 + 1 = q.length by omega]
    exact (List.prefix_iff_eq_take.mp hpre).symm

theorem path_generator_mem {fs : FS} {q : FPath} :
    q ∈ path_generator fs ↔
      (∃ f ∈ fs, q ≠ [] ∧ q <+: f.1) ∧ excludedName (lastSeg q) = false := by
  unfold path_generator
  rw [List.mem_filter]
  constructor
  · rintro ⟨h1, h2⟩
    have h3 := List.mem_dedup.mp h1
    obtain ⟨fp, hfp, hq⟩ := List.mem_flatMap.mp h3
    obtain ⟨f, hf, hffp⟩ := List.mem_map.mp hfp
    obtain ⟨hne, hpre⟩ := pathDepths_mem.mp hq
    refine ⟨⟨f, hf, hne, by rw [hffp]; exact hpre⟩, ?_⟩
    simpa using h2
  · rintro ⟨⟨f, hf, hne, hpre⟩, hexcl⟩
    refine ⟨List.mem_dedup.mpr (List.mem_flatMap.mpr
      ⟨f.1, List.mem_map.mpr ⟨f, hf, rfl⟩, pathDepths_mem.mpr ⟨hne, hpre⟩⟩), ?_⟩
    simpa using hexcl

/-- A scanned path sits above at least one file, so move_path on it acts. -/
theorem scan_any_under {fs : FS} {p : FPath} (hp : p ∈ path_generator fs) :
    (fs.any fun e => decide (p <+: e.1)) = true := by
  obtain ⟨⟨f, hf, _, hpre⟩, _⟩ := path_generator_mem.mp hp
  exact List.any_eq_true.mpr ⟨f, hf, by simpa using hpre⟩

theorem findRename_none_iff {kws : List (Seg × List Char)} {fs : FS} :
    findRename kws fs = none ↔
      ∀ q ∈ path_generator fs, ∀ kl ∈ kws, ¬kl.2 <:+: lastSeg q := by
  unfold findRename
  rw [List.findSome?_eq_none_iff]
  constructor
  · intro h q hq kl hkl hocc
    have := h q hq
    rw [Option.map_eq_none'] at this
    have h2 := List.find?_eq_none.mp this kl hkl
    simp only [decide_eq_true_eq] at h2
    exact h2 hocc
  · intro h q hq
    rw [Option.map_eq_none']
    rw [List.find?_eq_none]
    intro kl hkl
    simp only [decide_eq_true_eq]
    exact h q hq kl hkl

theorem findRename_some {kws : List (Seg × List Char)} {fs : FS} {p : FPath}
    {k : Seg} {l : List Char} (h : findRename kws fs = some (p, k, l)) :
    p ∈ path_generator fs ∧ (k, l) ∈ kws ∧ l <:+: lastSeg p := by
  unfold findRename at h
  obtain ⟨q, hq, hfq⟩ := List.exists_of_findSome?_eq_some h
  rcases hfind : kws.find? fun kl => decide (kl.2 <:+: lastSeg q) with _ | kl
  · rw [hfind] at hfq
    exact Option.noConfusion hfq
  · rw [hfind] at hfq
    injection hfq with hfq'
    have hqp : q = p := congrArg Prod.fst hfq'
    have hklv : kl = (k, l) := congrArg Prod.snd hfq'
    subst hqp
    subst hklv
    have hmem := List.mem_of_find?_eq_some hfind
    have hmatch := List.find?_some hfind
    simp only [decide_eq_true_eq] at hmatch
    exact ⟨hq, hmem, hmatch⟩

theorem move_path_files_cases {fs : FS} {p p' : FPath}
    (hg : (fs.any fun e => decide (p <+: e.1)) = true)
    {e : FPath × Content} (he : e ∈ move_path fs p p') :
    (e ∈ fs ∧ ¬p <+: e.1 ∧ ¬p' <+: e.1) ∨
    ∃ g ∈ fs, p <+: g.1 ∧ e.1 = p' ++ g.1.drop p.length := by
  unfold move_path at he
  rw [if_pos hg] at he
  rcases List.mem_append.mp he with h1 | h2
  · have hm := List.mem_filter.mp h1
    have hm2 := hm.2
    simp only [Bool.not_eq_true', Bool.or_eq_false_iff, decide_eq_false_iff_not] at hm2
    exact Or.inl ⟨hm.1, hm2.1, hm2.2⟩
  · obtain ⟨g, hgm, hge⟩ := List.mem_map.mp h2
    have hgf := List.mem_filter.mp hgm
    have hgp : p <+: g.1 := by
      have := hgf.2
      simpa using this
    exact Or.inr ⟨g, hgf.1, hgp, by rw [← hge]⟩

/-- Where the scanned paths of a renamed tree come from: either a path of
the old scan untouched by the move, or the reprefixing of an old scanned
path under the moved one. -/
theorem scan_move_subset {fs : FS} {p : FPath} {s' : Seg}
    (hp : p ∈ path_generator fs) :
    ∀ q' ∈ path_generator (move_path fs p (p.dropLast ++ [s'])),
      (q' ∈ path_generator fs ∧ ¬p <+: q' ∧ ¬(p.dropLast ++ [s']) <+: q') ∨
      ∃ q ∈ path_generator fs, p <+: q ∧
        q' = (p.dropLast ++ [s']) ++ q.drop p.length := by
  intro q' hq'
  obtain ⟨⟨f', hf', hne', hpre'⟩, hexcl'⟩ := path_generator_mem.mp hq'
  have hpne : p ≠ [] := path_generator_ne_nil fs p hp
  have hppos : 0 < p.length := List.length_pos.mpr hpne
  have hguard := scan_any_under hp
  have hplen : (p.dropLast ++ [s']).length = p.length := by
    rw [List.length_append, List.length_dropLast]
    simp
    omega
  have hdlp : p.dropLast <+: p := ⟨[lastSeg p], dropLast_lastSeg hpne⟩
  rcases move_path_files_cases hguard hf' with ⟨hff, hfp, hfp'⟩ | ⟨g, hg, hpg, hfe⟩
  · left
    refine ⟨path_generator_mem.mpr ⟨⟨f', hff, hne', hpre'⟩, hexcl'⟩, ?_, ?_⟩
    · exact fun hc => hfp (hc.trans hpre')
    · exact fun hc => hfp' (hc.trans hpre')
  · rw [hfe] at hpre'
    by_cases hlen : q'.length ≤ p.length - 1
    · left
      have hq'p' : q' <+: p.dropLast ++ [s'] :=
        (List.isPrefix_append_of_length (by rw [hplen]; omega)).mp hpre'
      have hq'dl : q' <+: p.dropLast :=
        (List.isPrefix_append_of_length (by rw [List.length_dropLast]; omega)).mp hq'p'
      have hq'p : q' <+: p := hq'dl.trans hdlp
      obtain ⟨⟨f₀, hf₀, _, hpf₀⟩, _⟩ := path_generator_mem.mp hp
      refine ⟨path_generator_mem.mpr ⟨⟨f₀, hf₀, hne', hq'p.trans hpf₀⟩, hexcl'⟩, ?_, ?_⟩
      · intro hc
        have := hc.length_le
        omega
      · intro hc
        have := hc.length_le
        rw [hplen] at this
        omega
    · right
      have hqslen : p.length ≤ q'.length := by omega
      have hpsq : (p.dropLast ++ [s']) <+: q' := by
        have h1 : q'.take (p.dropLast ++ [s']).length <+:
            ((p.dropLast ++ [s']) ++ g.1.drop p.length).take (p.dropLast ++ [s']).length :=
          hpre'.take _
        rw [List.take_left] at h1
        have hlen1 : (q'.take (p.dropLast ++ [s']).length).length =
            (p.dropLast ++ [s']).length := by
          rw [List.length_take, hplen]
          omega
        rw [← h1.eq_of_length hlen1]
        exact take_isPre _ _
      have hqseq : q' = (p.dropLast ++ [s']) ++ q'.drop (p.dropLast ++ [s']).length := by
        obtain ⟨t, ht⟩ := hpsq
        have hdt : q'.drop (p.dropLast ++ [s']).length = t := by
          rw [← ht, List.drop_left]
        rw [hdt, ht]
      have hqpre : q'.drop (p.dropLast ++ [s']).length <+: g.1.drop p.length := by
        have h2 := hpre'.drop (p.dropLast ++ [s']).length
        rw [List.drop_left] at h2
        exact h2
      rcases Nat.eq_or_lt_of_le (by rw [hplen]; exact hqslen :
          (p.dropLast ++ [s']).length ≤ q'.length) with heq | hlt
      · refine ⟨p, hp, List.prefix_refl p, ?_⟩
        have : q' = p.dropLast ++ [s'] := (hpsq.eq_of_length heq).symm
        rw [this, List.drop_length]
        simp
      · have hdne : q'.drop (p.dropLast ++ [s']).length ≠ [] := by
          intro hnil
          have := congrArg List.length hnil
          rw [List.length_drop] at this
          simp only [List.length_nil] at this
          omega
        obtain ⟨t, ht⟩ := hpg
        have hdt : g.1.drop p.length = t := by rw [← ht, List.drop_left]
        have hqg : p ++ q'.drop (p.dropLast ++ [s']).length <+: g.1 := by
          rw [← ht]
          refine prefix_append_same ?_
          rw [hdt] at hqpre
          exact hqpre
        have hlast : lastSeg (p ++ q'.drop (p.dropLast ++ [s']).length) = lastSeg q' := by
          rw [lastSeg_append_ne_nil p hdne]
          conv_rhs => rw [hqseq]
          rw [lastSeg_append_ne_nil _ hdne]
        refine ⟨p ++ q'.drop (p.dropLast ++ [s']).length,
          path_generator_mem.mpr ⟨⟨g, hg, by simp [hpne], hqg⟩, by rw [hlast]; exact hexcl'⟩,
          List.prefix_append p _, ?_⟩
        rw [List.drop_left]
        exact hqseq

/-- How many substitution-map entries match a path's base name. -/
def pathScore (kws : List (Seg × List Char)) (q : FPath) : Nat :=
  kws.countP fun kl => decide (kl.2 <:+: lastSeg q)

/-- The total number of (scanned path, matching entry) pairs: the measure
of the rename loop. -/
def matchCount (kws : List (Seg × List Char)) (fs : FS) : Nat :=
  ∑ q ∈ (path_generator fs).toFinset, pathScore kws q

theorem countP_lt_of_mono {α : Type} (pf qf : α → Bool) :
    ∀ l : List α, (∀ a ∈ l, pf a → qf a) → ∀ a₀ ∈ l, qf a₀ → ¬pf a₀ = true →
      l.countP pf < l.countP qf := by
  intro l
  induction l with
  | nil => intro _ a₀ h; exact absurd h (List.not_mem_nil a₀)
  | cons b t ih =>
    intro hmono a₀ ha₀ hq hnp
    rw [List.countP_cons, List.countP_cons]
    rcases List.mem_cons.mp ha₀ with hb | ht
    · subst hb
      rw [if_neg hnp, if_pos hq]
      have hle : t.countP pf ≤ t.countP qf :=
        List.countP_mono_left fun a ha hpa => hmono a (List.mem_cons_of_mem a₀ ha) hpa
      omega
    · have hlt := ih (fun a ha hpa => hmono a (List.mem_cons_of_mem b ha) hpa) a₀ ht hq hnp
      have hhead : (if pf b = true then 1 else 0) ≤ (if qf b = true then 1 else 0) := by
        by_cases hpb : pf b = true
        · rw [if_pos hpb, if_pos (hmono b (List.mem_cons_self b t) hpb)]
        · rw [if_neg hpb]
          omega
      omega

theorem matchCount_decrease {kws : List (Seg × List Char)} {fs : FS} {p : FPath}
    {k : Seg} {l : List Char}
    (hO : ∀ kl ∈ kws, ∀ kl' ∈ kws, OverlapFree kl'.2 (render kl.1))
    (hfind : findRename kws fs = some (p, k, l)) :
    matchCount kws (move_path fs p (p.dropLast ++ [pyReplace l (render k) (lastSeg p)])) <
      matchCount kws fs := by
  obtain ⟨hp, hkl, hocc⟩ := findRename_some hfind
  have hOself : OverlapFree l (render k) := hO (k, l) hkl (k, l) hkl
  have hkill : ¬l <:+: pyReplace l (render k) (lastSeg p) := pyReplace_self_kill hOself _
  have hmono : ∀ kl' ∈ kws,
      (fun kl' => decide (kl'.2 <:+: pyReplace l (render k) (lastSeg p))) kl' = true →
      (fun kl' => decide (kl'.2 <:+: lastSeg p)) kl' = true := by
    intro kl' hkl' hm
    simp only [decide_eq_true_eq] at hm ⊢
    by_cases heq : kl'.2 = l
    · rw [heq] at hm
      exact absurd hm hkill
    · by_contra hno
      exact pyReplace_preserve_none (hO (k, l) hkl kl' hkl') (lastSeg p) hno hm
  have hscore : pathScore kws (p.dropLast ++ [pyReplace l (render k) (lastSeg p)]) <
      pathScore kws p := by
    unfold pathScore
    rw [lastSeg_concat]
    refine countP_lt_of_mono _ _ kws hmono (k, l) hkl ?_ ?_
    · simp only [decide_eq_true_eq]
      exact hocc
    · simp only [decide_eq_true_eq]
      exact hkill
  classical
  have hsub : (path_generator (move_path fs p
      (p.dropLast ++ [pyReplace l (render k) (lastSeg p)]))).toFinset ⊆
      ((path_generator fs).toFinset.filter
        (fun q => ¬p <+: q ∧ ¬(p.dropLast ++ [pyReplace l (render k) (lastSeg p)]) <+: q)) ∪
      ((path_generator fs).toFinset.filter (fun q => p <+: q)).image
        (fun q => (p.dropLast ++ [pyReplace l (render k) (lastSeg p)]) ++ q.drop p.length) := by
    intro q' hq'
    rcases scan_move_subset hp q' (List.mem_toFinset.mp hq') with ⟨h1, h2, h3⟩ | ⟨q, hq, hpq, heq⟩
    · exact Finset.mem_union_left _
        (Finset.mem_filter.mpr ⟨List.mem_toFinset.mpr h1, h2, h3⟩)
    · exact Finset.mem_union_right _ (Finset.mem_image.mpr
        ⟨q, Finset.mem_filter.mpr ⟨List.mem_toFinset.mpr hq, hpq⟩, heq.symm⟩)
  have hdisj : Disjoint
      ((path_generator fs).toFinset.filter
        (fun q => ¬p <+: q ∧ ¬(p.dropLast ++ [pyReplace l (render k) (lastSeg p)]) <+: q))
      (((path_generator fs).toFinset.filter (fun q => p <+: q)).image
        (fun q => (p.dropLast ++ [pyReplace l (render k) (lastSeg p)]) ++ q.drop p.length)) := by
    rw [Finset.disjoint_left]
    intro x hx hx2
    obtain ⟨q, _, hqx⟩ := Finset.mem_image.mp hx2
    have := (Finset.mem_filter.mp hx).2.2
    exact this (by rw [← hqx]; exact List.prefix_append _ _)
  have hinj : ∀ a ∈ (path_generator fs).toFinset.filter (fun q => p <+: q),
      ∀ b ∈ (path_generator fs).toFinset.filter (fun q => p <+: q),
      (p.dropLast ++ [pyReplace l (render k) (lastSeg p)]) ++ a.drop p.length =
        (p.dropLast ++ [pyReplace l (render k) (lastSeg p)]) ++ b.drop p.length → a = b := by
    intro a ha b hb hab
    have hpa : p <+: a := (Finset.mem_filter.mp ha).2
    have hpb : p <+: b := (Finset.mem_filter.mp hb).2
    have hd : a.drop p.length = b.drop p.length := List.append_cancel_left hab
    obtain ⟨ta, hta⟩ := hpa
    obtain ⟨tb, htb⟩ := hpb
    have hta' : a.drop p.length = ta := by rw [← hta, List.drop_left]
    have htb' : b.drop p.length = tb := by rw [← htb, List.drop_left]
    rw [← hta, ← htb]
    rw [hta', htb'] at hd
    rw [hd]
  have hpC : p ∈ (path_generator fs).toFinset.filter (fun q => p <+: q) :=
    Finset.mem_filter.mpr ⟨List.mem_toFinset.mpr hp, List.prefix_refl p⟩
  have hcongr : ∀ q ∈ ((path_generator fs).toFinset.filter (fun q => p <+: q)).erase p,
      pathScore kws ((p.dropLast ++ [pyReplace l (render k) (lastSeg p)]) ++ q.drop p.length) =
        pathScore kws q := by
    intro q hq
    have hqne : q ≠ p := (Finset.mem_erase.mp hq).1
    have hpq : p <+: q := (Finset.mem_filter.mp (Finset.mem_erase.mp hq).2).2
    have hlt : p.length < q.length := by
      rcases Nat.lt_or_ge p.length q.length with h | h
      · exact h
      · exact absurd ((hpq.eq_of_length (le_antisymm hpq.length_le h)).symm) hqne
    have hdne : q.drop p.length ≠ [] := by
      intro hnil
      have := congrArg List.length hnil
      rw [List.length_drop] at this
      simp only [List.length_nil] at this
      omega
    unfold pathScore
    rw [lastSeg_append_ne_nil _ hdne]
    obtain ⟨t, ht⟩ := hpq
    have hdt : q.drop p.length = t := by rw [← ht, List.drop_left]
    conv_rhs => rw [← ht]
    rw [lastSeg_append_ne_nil p (by rw [← hdt]; exact hdne), hdt]
  have hrep : (p.dropLast ++ [pyReplace l (render k) (lastSeg p)]) ++ p.drop p.length =
      p.dropLast ++ [pyReplace l (render k) (lastSeg p)] := by
    rw [List.drop_length]
    simp
  calc matchCount kws (move_path fs p (p.dropLast ++ [pyReplace l (render k) (lastSeg p)]))
      ≤ ∑ q ∈ ((path_generator fs).toFinset.filter
            (fun q => ¬p <+: q ∧ ¬(p.dropLast ++ [pyReplace l (render k) (lastSeg p)]) <+: q)) ∪
          ((path_generator fs).toFinset.filter (fun q => p <+: q)).image
            (fun q => (p.dropLast ++ [pyReplace l (render k) (lastSeg p)]) ++ q.drop p.length),
          pathScore kws q := Finset.sum_le_sum_of_subset hsub
    _ = (∑ q ∈ (path_generator fs).toFinset.filter
            (fun q => ¬p <+: q ∧ ¬(p.dropLast ++ [pyReplace l (render k) (lastSeg p)]) <+: q),
          pathScore kws q) +
        ∑ q ∈ ((path_generator fs).toFinset.filter (fun q => p <+: q)).image
            (fun q => (p.dropLast ++ [pyReplace l (render k) (lastSeg p)]) ++ q.drop p.length),
          pathScore kws q := Finset.sum_union hdisj
    _ = (∑ q ∈ (path_generator fs).toFinset.filter
            (fun q => ¬p <+: q ∧ ¬(p.dropLast ++ [pyReplace l (render k) (lastSeg p)]) <+: q),
          pathScore kws q) +
        ∑ q ∈ (path_generator fs).toFinset.filter (fun q => p <+: q),
          pathScore kws ((p.dropLast ++ [pyReplace l (render k) (lastSeg p)]) ++ q.drop p.length) := by
        rw [Finset.sum_image hinj]
    _ < (∑ q ∈ (path_generator fs).toFinset.filter
            (fun q => ¬p <+: q ∧ ¬(p.dropLast ++ [pyReplace l (render k) (lastSeg p)]) <+: q),
          pathScore kws q) +
        ∑ q ∈ (path_generator fs).toFinset.filter (fun q => p <+: q),
          pathScore kws q := by
        refine Nat.add_lt_add_left ?_ _
        rw [← Finset.sum_erase_add _ _ hpC]
        conv_rhs => rw [← Finset.sum_erase_add _ _ hpC]
        refine Nat.add_lt_add_of_le_of_lt (le_of_eq (Finset.sum_congr rfl hcongr)) ?_
        rw [hrep]
        exact hscore
    _ ≤ ∑ q ∈ (path_generator fs).toFinset, pathScore kws q := by
        rw [← Finset.sum_union (by
          rw [Finset.disjoint_left]
          intro x hx hx2
          exact (Finset.mem_filter.mp hx).2.1 (Finset.mem_filter.mp hx2).2)]
        refine Finset.sum_le_sum_of_subset ?_
        intro x hx
        rcases Finset.mem_union.mp hx with h | h
        · exact (Finset.mem_filter.mp h).1
        · exact (Finset.mem_filter.mp h).1
    _ = matchCount kws fs := rfl

theorem matchCount_le (kws : List (Seg × List Char)) (fs : FS) :
    matchCount kws fs ≤ (path_generator fs).length * kws.length := by
  classical
  have h1 : matchCount kws fs ≤ (path_generator fs).toFinset.card • kws.length := by
    refine Finset.sum_le_card_nsmul _ _ _ ?_
    intro q _
    exact List.countP_le_length _
  rw [smul_eq_mul] at h1
  calc matchCount kws fs ≤ (path_generator fs).toFinset.card * kws.length := h1
    _ ≤ (path_generator fs).length * kws.length :=
        Nat.mul_le_mul_right _ (path_generator fs).toFinset_card_le

theorem matchCount_pos_of_find {kws : List (Seg × List Char)} {fs : FS} {p : FPath}
    {k : Seg} {l : List Char} (hfind : findRename kws fs = some (p, k, l)) :
    1 ≤ matchCount kws fs := by
  classical
  obtain ⟨hp, hkl, hocc⟩ := findRename_some hfind
  have hs : 1 ≤ pathScore kws p := by
    unfold pathScore
    exact List.countP_pos_iff.mpr ⟨(k, l), hkl, by simpa using hocc⟩
  calc 1 ≤ pathScore kws p := hs
    _ ≤ matchCount kws fs :=
        Finset.single_le_sum (fun q _ => Nat.zero_le _) (List.mem_toFinset.mpr hp)

theorem renameLoop_converges (kws : List (Seg × List Char))
    (hO : ∀ kl ∈ kws, ∀ kl' ∈ kws, OverlapFree kl'.2 (render kl.1)) :
    ∀ (fuel : Nat) (fs : FS), matchCount kws fs ≤ fuel →
      findRename kws (renameLoop kws fuel fs) = none := by
  intro fuel
  induction fuel with
  | zero =>
    intro fs hle
    rcases h : findRename kws fs with _ | ⟨⟨p, k, l⟩⟩
    · exact h
    · exact absurd (le_trans (matchCount_pos_of_find h) hle) (by omega)
  | succ n ih =>
    intro fs hle
    rcases h : findRename kws fs with _ | ⟨⟨p, k, l⟩⟩
    · rw [renameLoop, h]
      exact h
    · rw [renameLoop, h]
      exact ih _ (by
        have := matchCount_decrease hO h
        omega)

/-- C2: for every finite substitution map whose literals are not reintroduced
by any replacement's rendered placeholder (the OverlapFree matrix over all
pairs of entries), the filename-substitution rename loop reaches its fixed
point within at most (number of scanned paths) x (number of keys) iterations
of fuel — exactly the measure matchCount, bounded by that product — and after
termination a complete scan of the tree finds no path whose base name contains
any substitution literal as a substring. -/
theorem C2_rename_loop_terminates (kws : List (Seg × List Char)) (fs : FS)
    (hO : ∀ kl ∈ kws, ∀ kl' ∈ kws, OverlapFree kl'.2 (render kl.1)) :
    ∀ q ∈ path_generator (renameLoop kws ((path_generator fs).length * kws.length) fs),
      ∀ kl ∈ kws, ¬kl.2 <:+: lastSeg q :=
  findRename_none_iff.mp (renameLoop_converges kws hO _ fs (matchCount_le kws fs))

theorem C2_rename_loop_terminates_witness :
    ¬ "old".data <:+: lastSeg ["\x7b\x7b k \x7d\x7ddir".data] :=
  C2_rename_loop_terminates [("k".data, "old".data)]
    [(["olddir".data, "f_old.txt".data], "c".data)]
    (by decide)
    ["\x7b\x7b k \x7d\x7ddir".data]
    (by decide)
    ("k".data, "old".data)
    (by decide)

/-! ## Exclude-list enforcement (C9)

The invariant: no file of the tree lies at or below a given path e.  It is
established by seedStep (whose last stage deletes everything under each
exclude-list entry) and preserved by every later stage, because every path
those stages create either reuses an existing file path or introduces a
segment no exclude-list entry contains. -/

theorem pyReplaceAux_nil_left (R : List Char) : ∀ (fuel : Nat) (t : List Char),
    pyReplaceAux [] R fuel t = t := by
  intro fuel
  induction fuel with
  | zero => intro t; rfl
  | succ n ih =>
    intro t
    cases t with
    | nil => rfl
    | cons c t =>
      rw [pyReplaceAux, if_neg (by simp), ih]

theorem move_path_exclFree {fs : FS} {old : FPath} {s' : Seg} {e : FPath}
    (hinv : ∀ f ∈ fs, ¬e <+: f.1) (hseg : s' ∉ e) :
    ∀ f ∈ move_path fs old (old.dropLast ++ [s']), ¬e <+: f.1 := by
  intro f hf
  by_cases hg : (fs.any fun g => decide (old <+: g.1)) = true
  · rcases move_path_files_cases hg hf with ⟨hmem, _, _⟩ | ⟨g, hgmem, hpg, hfe⟩
    · exact hinv f hmem
    · intro he
      rw [hfe] at he
      rcases le_or_lt e.length old.dropLast.length with hle | hlt
      · have h1 : old.dropLast <+: (old.dropLast ++ [s']) ++ g.1.drop old.length := by
          rw [List.append_assoc]
          exact List.prefix_append _ _
        have h2 : e <+: old.dropLast := List.prefix_of_prefix_length_le he h1 hle
        exact hinv g hgmem (h2.trans (( List.dropLast_prefix old).trans hpg))
      · have h1 : old.dropLast ++ [s'] <+: (old.dropLast ++ [s']) ++ g.1.drop old.length :=
          List.prefix_append _ _
        have hlen : (old.dropLast ++ [s']).length ≤ e.length := by
          simp only [List.length_append, List.length_singleton]
          omega
        have h2 : old.dropLast ++ [s'] <+: e := List.prefix_of_prefix_length_le h1 he hlen
        exact hseg (h2.subset (List.mem_append.mpr (Or.inr (List.mem_singleton.mpr rfl))))
  · unfold move_path at hf
    rw [if_neg hg] at hf
    exact hinv f hf

theorem condMoveFold_exclFree (cond : FPath → Prop) [DecidablePred cond]
    (segOf : FPath → Seg) {e : FPath} (hseg : ∀ p, segOf p ∉ e) :
    ∀ (l : List FPath) (t : FS), (∀ f ∈ t, ¬e <+: f.1) →
      ∀ f ∈ condMoveFold cond (fun p => p.dropLast ++ [segOf p]) l t, ¬e <+: f.1 := by
  intro l
  induction l with
  | nil => intro t hinv f hf; exact hinv f hf
  | cons q l ih =>
    intro t hinv f hf
    unfold condMoveFold at hf
    rw [List.foldl_cons] at hf
    by_cases hc : cond q
    · rw [if_pos hc] at hf
      exact ih _ (move_path_exclFree hinv (hseg q)) f hf
    · rw [if_neg hc] at hf
      exact ih _ hinv f hf

theorem foldl_ensure_removed_spec :
    ∀ (l : List FPath) (t : FS) (f : FPath × Content),
      f ∈ l.foldl ensure_removed t → f ∈ t ∧ ∀ e ∈ l, ¬e <+: f.1 := by
  intro l
  induction l with
  | nil =>
    intro t f hf
    exact ⟨hf, fun e he => absurd he (List.not_mem_nil e)⟩
  | cons e0 l ih =>
    intro t f hf
    rw [List.foldl_cons] at hf
    obtain ⟨hf1, hf2⟩ := ih _ f hf
    unfold ensure_removed at hf1
    have hm := List.mem_filter.mp hf1
    refine ⟨hm.1, ?_⟩
    intro e he
    rcases List.mem_cons.mp he with rfl | hel
    · simpa using hm.2
    · exact hf2 e hel

theorem seedStep_exclFree (src : FS) :
    ∀ e ∈ to_be_excluded, ∀ f ∈ seedStep src, ¬e <+: f.1 := by
  intro e he f hf
  exact (foldl_ensure_removed_spec to_be_excluded _ f hf).2 e he

theorem substitutionStep_exclFree {kws : List (Seg × List Char)} {t : FS} {e : FPath}
    (hinv : ∀ f ∈ t, ¬e <+: f.1) :
    ∀ f ∈ (substitutionStep kws t).1, ¬e <+: f.1 := by
  intro f hf
  obtain ⟨g, hg, hfe⟩ := List.mem_map.mp hf
  have h1 : f.1 = g.1 := by
    rw [← hfe]
    split
    · rfl
    · rfl
  intro he2
  rw [h1] at he2
  exact hinv g hg he2

theorem markerStep_exclFree {changed : List FPath} {t : FS} {e : FPath}
    (he : e ∈ to_be_excluded) (hinv : ∀ f ∈ t, ¬e <+: f.1) :
    ∀ f ∈ markerStep changed t, ¬e <+: f.1 := by
  have hdec : ∀ e' ∈ to_be_excluded, ∀ x ∈ e', ¬jinjaExt <:+ x := by decide
  refine condMoveFold_exclFree _ (fun p => jinjaName (lastSeg p)) ?_ changed.dedup t hinv
  intro p hmem
  have hsfx : jinjaExt <:+ jinjaName (lastSeg p) :=
    ⟨py_stem (lastSeg p) ++ py_suffix (lastSeg p), by rw [List.append_assoc]; rfl⟩
  exact hdec e he _ hmem hsfx

theorem renameLoop_exclFree {kws : List (Seg × List Char)} {e : FPath}
    (he : e ∈ to_be_excluded) :
    ∀ (fuel : Nat) (t : FS), (∀ f ∈ t, ¬e <+: f.1) →
      ∀ f ∈ renameLoop kws fuel t, ¬e <+: f.1 := by
  have hdec : ∀ e' ∈ to_be_excluded, ∀ x ∈ e', '\x7b' ∉ x := by decide
  intro fuel
  induction fuel with
  | zero => intro t hinv f hf; exact hinv f hf
  | succ n ih =>
    intro t hinv f hf
    rw [renameLoop] at hf
    rcases hfind : findRename kws t with _ | ⟨⟨p, k, l⟩⟩
    · rw [hfind] at hf
      exact hinv f hf
    · rw [hfind] at hf
      obtain ⟨hp, hkl, hocc⟩ := findRename_some hfind
      refine ih _ ?_ f hf
      by_cases hl : l = []
      · subst hl
        have hrepl : pyReplace [] (render k) (lastSeg p) = lastSeg p :=
          pyReplaceAux_nil_left _ _ _
        rw [hrepl, dropLast_lastSeg (path_generator_ne_nil t p hp)]
        intro g hg he2
        by_cases hgd : (t.any fun x => decide (p <+: x.1)) = true
        · rcases move_path_files_cases hgd hg with ⟨hm, _, _⟩ | ⟨g0, hg0, hpg0, hge⟩
          · exact hinv g hm he2
          · obtain ⟨d, hd⟩ := hpg0
            rw [hge, ← hd, List.drop_left, hd] at he2
            exact hinv g0 hg0 he2
        · unfold move_path at hg
          rw [if_neg hgd] at hg
          exact hinv g hg he2
      · refine move_path_exclFree hinv ?_
        intro hmem
        have hinf : render k <:+: pyReplace l (render k) (lastSeg p) :=
          pyReplace_emits hl _ hocc
        have hmb : '\x7b' ∈ render k := by
          unfold render
          exact List.mem_append_left _ (List.mem_append_left _ (by decide))
        exact hdec e he _ hmem (hinf.subset hmb)

theorem conditionalStep_exclFree {e : FPath} (he : e ∈ to_be_excluded) :
    ∀ (conds : List (Seg × Seg)) (t : FS), (∀ f ∈ t, ¬e <+: f.1) →
      ∀ f ∈ conditionalStep conds t, ¬e <+: f.1 := by
  have hdec : ∀ e' ∈ to_be_excluded, ∀ x ∈ e', '\x7b' ∉ x := by decide
  intro conds
  induction conds with
  | nil => intro t hinv f hf; exact hinv f hf
  | cons sc conds ih =>
    intro t hinv f hf
    unfold conditionalStep at hf
    rw [List.foldl_cons] at hf
    refine ih _ ?_ f hf
    refine condMoveFold_exclFree _ (fun p => wrapName sc.2 (py_stem (lastSeg p))) ?_ _ _ hinv
    intro p hmem
    have hmb : '\x7b' ∈ wrapName sc.2 (py_stem (lastSeg p)) := by
      unfold wrapName
      exact List.mem_append_left _ (List.mem_append_left _ (List.mem_append_left _
        (List.mem_append_left _ (List.mem_append_left _ (by decide)))))
    exact hdec e he _ hmem hmb

theorem mergeOne_exclFree {σ : List FPath} {t t' : FS} {ov : Seg × Content} {e : FPath}
    (hlen : 2 ≤ e.length) (hok : mergeOne σ t ov = Except.ok t')
    (hinv : ∀ f ∈ t, ¬e <+: f.1) :
    ∀ f ∈ t', ¬e <+: f.1 := by
  intro f hf
  unfold mergeOne at hok
  split at hok
  · rename_i q hfind
    split at hok
    · rename_i hany
      injection hok with h
      subst h
      rcases List.mem_append.mp hf with h1 | h2
      · exact hinv f (List.mem_filter.mp h1).1
      · obtain ⟨g, hg, hgq⟩ := List.any_eq_true.mp hany
        have hq : g.1 = q := by simpa using hgq
        have hfv : f = (q, ov.2) := List.mem_singleton.mp h2
        rw [hfv]
        intro hpre
        exact hinv g hg (by rw [hq]; exact hpre)
    · exact Except.noConfusion hok
  · injection hok with h
    subst h
    rcases List.mem_append.mp hf with h1 | h2
    · exact hinv f (List.mem_filter.mp h1).1
    · have hfv : f = ([ov.1], ov.2) := List.mem_singleton.mp h2
      rw [hfv]
      intro hpre
      have hl2 := hpre.length_le
      simp only [List.length_singleton] at hl2
      omega

theorem mergeStep_exclFree {σ : List FPath} {e : FPath} (hlen : 2 ≤ e.length) :
    ∀ (overlay : List (Seg × Content)) (t t' : FS),
      mergeStep overlay σ t = Except.ok t' → (∀ f ∈ t, ¬e <+: f.1) →
      ∀ f ∈ t', ¬e <+: f.1 := by
  intro overlay
  induction overlay with
  | nil =>
    intro t t' hok hinv f hf
    unfold mergeStep at hok
    rw [List.foldlM_nil] at hok
    injection hok with h
    subst h
    exact hinv f hf
  | cons ov l ih =>
    intro t t' hok hinv
    obtain ⟨tm, h1, h2⟩ := mergeStep_cons hok
    exact ih tm t' h2 (mergeOne_exclFree hlen h1 hinv)

theorem buildTree_exclFree (kws : List (Seg × List Char)) (conds : List (Seg × Seg))
    (src : FS) :
    ∀ e ∈ to_be_excluded, ∀ f ∈ buildTree kws conds src, ¬e <+: f.1 := by
  intro e he
  have h1 : ∀ f ∈ seedStep src, ¬e <+: f.1 := seedStep_exclFree src e he
  have h2 : ∀ f ∈ (substitutionStep kws (seedStep src)).1, ¬e <+: f.1 :=
    substitutionStep_exclFree h1
  have h3 : ∀ f ∈ markerStep (substitutionStep kws (seedStep src)).2
      (substitutionStep kws (seedStep src)).1, ¬e <+: f.1 :=
    markerStep_exclFree he h2
  have h4 := @renameLoop_exclFree kws e he
    ((path_generator (markerStep (substitutionStep kws (seedStep src)).2
      (substitutionStep kws (seedStep src)).1)).length * kws.length) _ h3
  have h5 := conditionalStep_exclFree he conds _ h4
  intro f hf
  exact h5 f hf

theorem mainModel_ok_template {check : Bool} {rc : Int} {σ : List FPath → List FPath}
    {w : World} {r : RunResult} (h : mainModel check rc σ w = Except.ok r) :
    ∃ kws conds, w.config = some ⟨some kws, some conds⟩ ∧
      mergeStep w.static_template (σ (path_generator (buildTree kws conds w.source)))
        (buildTree kws conds w.source) = Except.ok r.world.template := by
  unfold mainModel at h
  split at h
  · exact Except.noConfusion h
  rename_i cfg hcfg
  split at h
  · rename_i kws conds hkm hcp
    split at h
    · exact Except.noConfusion h
    rename_i t5 hms
    have hcfg2 : w.config = some ⟨some kws, some conds⟩ := by
      rw [hcfg, ← hkm, ← hcp]
    split at h
    · split at h
      · injection h with h'
        subst h'
        exact ⟨kws, conds, hcfg2, hms⟩
      · injection h with h'
        subst h'
        exact ⟨kws, conds, hcfg2, hms⟩
    · injection h with h'
      subst h'
      exact ⟨kws, conds, hcfg2, hms⟩
  · exact Except.noConfusion h

/-- C9: after a successful full build, no path of the exclude-list, nor any
descendant of one, exists in the final destination tree (no file of the
result lies at or below an exclude-list entry, so neither the entry nor any
descendant exists as a file or directory); and deleting an exclude-list
entry that is absent is not an error: ensure_removed on a path with nothing
at or below it returns the tree unchanged. -/
theorem C9_exclude_list_enforced (check : Bool) (gitDiffRC : Int)
    (σ : List FPath → List FPath) (w : World) (r : RunResult)
    (hok : mainModel check gitDiffRC σ w = Except.ok r) :
    (∀ e ∈ to_be_excluded, ∀ f ∈ r.world.template, ¬e <+: f.1) ∧
      ∀ (t : FS) (p : FPath), (∀ f ∈ t, ¬p <+: f.1) → ensure_removed t p = t := by
  constructor
  · intro e he f hf
    obtain ⟨kws, conds, hcfg, hms⟩ := mainModel_ok_template hok
    have hlen : 2 ≤ e.length := by
      have hdec : ∀ e' ∈ to_be_excluded, 2 ≤ e'.length := by decide
      exact hdec e he
    exact mergeStep_exclFree hlen _ _ _ hms
      (buildTree_exclFree kws conds w.source e he) f hf
  · intro t p hinv
    unfold ensure_removed
    rw [List.filter_eq_self]
    intro a ha
    simpa using hinv a ha

/-- A source tree with a file inside the excluded src/build_template
directory and one outside it. -/
def wC9 : World :=
  { source := [(["src".data, "build_template".data, "main.py".data], "x".data),
      (["src".data, "a.py".data], "y".data)],
    template := [],
    static_template := [],
    config := some ⟨some [], some []⟩ }

theorem C9_exclude_list_enforced_witness :
    ¬["src".data, "build_template".data] <+: ["src".data, "a.py".data] :=
  (C9_exclude_list_enforced false 0 id wC9
      ⟨{ wC9 with template := [(["src".data, "a.py".data], "y".data)] }, 0, []⟩
      (by decide)).1
    ["src".data, "build_template".data] (by decide)
    (["src".data, "a.py".data], "y".data) (by decide)

end BuildTemplate
